import Mathlib

/-!
Verification development for the OSARA translation-template extractor
(`site_scons/makePot.py`).

The Python module is embedded shallowly:

* input files are lists of lines; a line is a `List Char` with its trailing
  newline stripped (Python's file iteration yields lines ending in `'\n'`;
  when the code concatenates a continuation line onto an accumulated buffer,
  we re-insert the `'\n'` separator explicitly, so buffers agree with the
  Python buffers up to the single trailing newline, which none of the
  patterns can distinguish);
* the Python regular expressions are embedded as abstract syntax trees
  (`RE`) together with a backtracking matcher `matchRE` implementing the
  leftmost, preference-order semantics of Python's `re` module for the
  constructs these particular patterns use (literals, character classes,
  greedy and lazy stars over single-character classes, alternation with
  first-alternative preference, greedy option, capture groups, `$`);
* `re.finditer` is `findIterGo` (scan left to right, non-overlapping,
  continue after each match); `re.match` is `matchAt0` (anchored at 0);
* the module-level mutable state (`messages`, `inTranslatorsComment`,
  `lastTranslatorsComment`) is the record `GState`, threaded explicitly;
* a raised `RuntimeError` / `StopIteration` is an `Err` value; the scanning
  loops return the state reached at the moment of the raise together with
  `some e`.
-/

/-- Python strings are modelled as lists of characters. -/
abbrev Str := List Char

/-- Shorthand: the character list of a Lean string literal. -/
def chars (s : String) : Str := s.data

/-- Python `\s` for the ASCII inputs at hand: space, tab, newline, carriage
return, vertical tab, form feed. -/
def pySpace (c : Char) : Bool :=
  c = ' ' || c = '\t' || c = '\n' || c = '\r' || c = '\x0b' || c = '\x0c'

/-- Python `\w` (word character) restricted to ASCII: alphanumeric or
underscore.  Used for the `\b` word-boundary assertions. -/
def isWordP (c : Char) : Bool := c.isAlphanum || c = '_'

/-- The character classes occurring in the makePot patterns: `.` (any char
except newline), `\s`, and `[^)]`. -/
inductive CClass where
  | dot
  | space
  | notRParen
deriving DecidableEq, Repr

/-- Membership in a character class. -/
def charIn : CClass → Char → Bool
  | .dot, c => c ≠ '\n'
  | .space, c => pySpace c
  | .notRParen, c => c ≠ ')'

/-- Regular-expression abstract syntax, covering exactly the constructs used
by the patterns in `makePot.py`.  Stars are restricted to single-character
classes (which is all those patterns use), so the matcher is structurally
terminating. -/
inductive RE where
  | eps
  | lit (cs : Str)
  | cls (c : CClass)
  | seq (a b : RE)
  | alt (a b : RE)
  | starG (c : CClass)
  | starL (c : CClass)
  | opt (a : RE)
  | group (g : Nat) (a : RE)
  | eolP
deriving DecidableEq, Repr

/-- Capture assignments: group id paired with captured text; the most recent
assignment is consed to the front. -/
abbrev Caps := List (Nat × Str)

/-- `m.group(g)`: the captured text of group `g`, `none` when the group did
not participate in the match. -/
def getCap (g : Nat) (caps : Caps) : Option Str :=
  (caps.find? fun e => e.1 = g).map fun e => e.2

/-- First-success choice: the backtracking preference order. -/
def orElseO : Option A → (Unit → Option A) → Option A
  | some r, _ => some r
  | none, f => f ()

/-- Lazy star over a character predicate: try the continuation after
consuming 0, 1, 2, ... characters of the class, preferring fewer. -/
def tryStarL (p : Char → Bool) : Str → Caps → (Str → Caps → Option A) → Option A
  | s, caps, k =>
    orElseO (k s caps) fun _ =>
      match s with
      | [] => none
      | a :: s' => if p a then tryStarL p s' caps k else none

/-- Greedy star over a character predicate: try the continuation after
consuming as many class characters as possible, preferring more. -/
def tryStarG (p : Char → Bool) (s : Str) (caps : Caps)
    (k : Str → Caps → Option A) : Option A :=
  match s with
  | [] => k [] caps
  | a :: s' =>
    if p a then
      match tryStarG p s' caps k with
      | some r => some r
      | none => k (a :: s') caps
    else k (a :: s') caps

/-- Backtracking matcher in continuation-passing style.  `matchRE r s caps k`
attempts to match `r` against a prefix of `s`, extending `caps`, and calls
`k` on the remaining input for every way of matching, in Python `re`
preference order; the first success wins. -/
def matchRE : RE → Str → Caps → (Str → Caps → Option A) → Option A
  | .eps, s, caps, k => k s caps
  | .lit cs, s, caps, k =>
    if cs.isPrefixOf s then k (s.drop cs.length) caps else none
  | .cls c, s, caps, k =>
    match s with
    | [] => none
    | a :: s' => if charIn c a then k s' caps else none
  | .seq a b, s, caps, k =>
    matchRE a s caps fun s' caps' => matchRE b s' caps' k
  | .alt a b, s, caps, k =>
    match matchRE a s caps k with
    | some r => some r
    | none => matchRE b s caps k
  | .starG c, s, caps, k => tryStarG (charIn c) s caps k
  | .starL c, s, caps, k => tryStarL (charIn c) s caps k
  | .opt a, s, caps, k =>
    match matchRE a s caps k with
    | some r => some r
    | none => k s caps
  | .group g a, s, caps, k =>
    matchRE a s caps fun s' caps' =>
      k s' ((g, s.take (s.length - s'.length)) :: caps')
  | .eolP, s, caps, k =>
    if s.isEmpty || s = ['\n'] then k s caps else none

/-- Attempt a match of `re` at the start of `s`; on success return the
captures and the unconsumed remainder. -/
def tryMatchAt (re : RE) (s : Str) : Option (Caps × Str) :=
  matchRE re s [] fun rest caps => some (caps, rest)

/-- `\b` handling for the three source-dialect patterns, all of which open
with `\b` followed by a word character: the boundary fails exactly when the
preceding character exists and is a word character (if the current character
were a non-word character the following literal would fail anyway). -/
def boundaryBlocked (prev : Option Char) : Bool :=
  match prev with
  | some c => isWordP c
  | none => false

/-- `re.finditer`: scan left to right; at each position not excluded by the
leading `\b`, attempt a match; on success record the captures and resume
after the consumed text (advancing one character for an empty match, as
Python does).  Resuming after a match of `L` consumed characters is
realized structurally: step to the next character and then skip `L - 1`
further positions via the `skip` counter (so the scan recursion is on the
tail of the string). -/
def findIterGo (re : RE) : Str → Option Char → Nat → List Caps
  | [], _, _ => []
  | a :: s', _, skip + 1 => findIterGo re s' (some a) skip
  | a :: s', prev, 0 =>
    if boundaryBlocked prev then findIterGo re s' (some a) 0
    else
      match tryMatchAt re (a :: s') with
      | none => findIterGo re s' (some a) 0
      | some (caps, rest) =>
        caps :: findIterGo re s' (some a) ((a :: s').length - rest.length - 1)

/-- Position-instrumented variant of `findIterGo` with identical recursion
structure: `i` is the absolute position (on the whole line) of the current
suffix, so every reported match is tagged with the position of its
occurrence; used to state that the scan reports matches in left-to-right
order of appearance. -/
def findIterPos (re : RE) : Str → Option Char → Nat → Nat → List (Nat × Caps)
  | [], _, _, _ => []
  | a :: s', _, skip + 1, i => findIterPos re s' (some a) skip (i + 1)
  | a :: s', prev, 0, i =>
    if boundaryBlocked prev then findIterPos re s' (some a) 0 (i + 1)
    else
      match tryMatchAt re (a :: s') with
      | none => findIterPos re s' (some a) 0 (i + 1)
      | some (caps, rest) =>
        (i, caps) :: findIterPos re s' (some a)
          ((a :: s').length - rest.length - 1) (i + 1)

/-- `re.match`: anchored attempt at position 0 only. -/
def matchAt0 (re : RE) (s : Str) : Option Caps :=
  matchRE re s [] fun _ caps => some caps

/-! Group identifiers for the named groups of the patterns. -/

def gMsgid : Nat := 1
def gEnd : Nat := 2
def gContext : Nat := 3
def gPlural : Nat := 4
def gCommand : Nat := 5
def gText : Nat := 6

/-- Right-nested sequencing of a list of regular expressions. -/
def seqs : List RE → RE
  | [] => .eps
  | [r] => r
  | r :: rs => .seq r (seqs rs)

/-- The argument alternation `(?:"(?P<g>.*?)"|[^)]*)` shared by the three
source-dialect patterns. -/
def argAlt (g : Nat) : RE :=
  .alt (seqs [.lit ['"'], .group g (.starL .dot), .lit ['"']])
    (.starG .notRParen)

/-- `RE_CPP_TRANSLATE`, i.e.
`\b(?:translate|_t)\(\s*(?:"(?P<msgid>.*?)"|[^)]*)\s*(?P<end>\))?`
(the leading `\b` is applied by `findIterGo`). -/
def simpleRE : RE :=
  seqs [.alt (.lit (chars "translate")) (.lit (chars "_t")), .lit ['('],
    .starG .space, argAlt gMsgid, .starG .space,
    .opt (.group gEnd (.lit [')']))]

/-- `RE_CPP_TRANSLATE_CTXT`, i.e.
`\btranslate_ctxt\(\s*(?:"(?P<context>.*?)"|[^)]*),?\s*(?:"(?P<msgid>.*?)"|[^)]*)\s*(?P<end>\))?`. -/
def ctxtRE : RE :=
  seqs [.lit (chars "translate_ctxt("),
    .starG .space, argAlt gContext, .opt (.lit [',']),
    .starG .space, argAlt gMsgid, .starG .space,
    .opt (.group gEnd (.lit [')']))]

/-- `RE_CPP_TRANSLATE_PLURAL`, i.e.
`\btranslate_plural\(\s*(?:"(?P<msgid>.*?)"|[^)]*),?\s*(?:"(?P<plural>.*?)"|[^)]*),?\s*[^)]*\s*(?P<end>\))?`. -/
def pluralRE : RE :=
  seqs [.lit (chars "translate_plural("),
    .starG .space, argAlt gMsgid, .opt (.lit [',']),
    .starG .space, argAlt gPlural, .opt (.lit [',']),
    .starG .space, .starG .notRParen, .starG .space,
    .opt (.group gEnd (.lit [')']))]

/-- The command alternation of `RE_RC_TRANSLATE`, in source order. -/
def cmdAlt : RE :=
  .alt (.lit (chars "CAPTION"))
    (.alt (.lit (chars "LTEXT"))
      (.alt (.lit (chars "DEFPUSHBUTTON"))
        (.alt (.lit (chars "PUSHBUTTON"))
          (.alt (.lit (chars "GROUPBOX")) (.lit (chars "CONTROL"))))))

/-- `RE_RC_TRANSLATE`, i.e.
`^\s*(?P<command>CAPTION|LTEXT|DEFPUSHBUTTON|PUSHBUTTON|GROUPBOX|CONTROL)\s+"(?P<msgid>.*?)"`
(`\s+` is one class character followed by a greedy star). -/
def rcRE : RE :=
  seqs [.starG .space, .group gCommand cmdAlt, .cls .space, .starG .space,
    .lit ['"'], .group gMsgid (.starL .dot), .lit ['"']]

/-- `RE_TRANSLATORS_COMMENT`, i.e. `^\s*// Translators: (.*)$`. -/
def translatorsRE : RE :=
  seqs [.starG .space, .lit (chars "// Translators: "),
    .group gText (.starG .dot), .eolP]

/-- `RE_COMMENT`, i.e. `^\s*// (.*)$`. -/
def commentRE : RE :=
  seqs [.starG .space, .lit (chars "// "), .group gText (.starG .dot), .eolP]

/-- A message key: `(data.get("context"), data["msgid"])`.  A simple
source-dialect call has no `context` group, and a contextual call whose
first argument is not a string literal captures `None`; both give `none`. -/
abbrev MsgKey := Option Str × Str

/-- The `groupdict()` of a match (plus the `comments` list added by
`addMessage`).  Dictionary keys that a given pattern lacks are `none` with
the corresponding presence flag cleared; `pluralKey` records whether the
dictionary has a `"plural"` key at all (true exactly for matches of the
plural pattern, even when the captured value is `None`), because the
serializer tests `"plural" in data`. -/
structure MsgData where
  msgid : Option Str
  context : Option Str
  pluralKey : Bool
  plural : Option Str
  command : Option Str
  endv : Option Str
  comments : List Str
deriving DecidableEq, Repr

instance : Inhabited MsgData := ⟨⟨none, none, false, none, none, none, []⟩⟩

/-- Python truthiness test `not x` for an optional string: true on `None`
and on the empty string. -/
def falsyOptStr : Option Str → Bool
  | none => true
  | some [] => true
  | some (_ :: _) => false

/-- The module-level mutable state of `makePot.py`: the ordered map
`messages` (as an ordered association list), `inTranslatorsComment`, and
`lastTranslatorsComment`. -/
structure GState where
  messages : List (MsgKey × MsgData)
  inTranslatorsComment : Bool
  lastTranslatorsComment : List Str
deriving DecidableEq, Repr

/-- The state of a fresh Python process right after importing the module. -/
def cleanState : GState := ⟨[], false, []⟩

/-- The exceptions the module can raise: `RuntimeError("No caption before
messages")`, `RuntimeError("Empty msgid")`, and the `StopIteration` escaping
from `next(input)` at end of input. -/
inductive Err where
  | noCaption
  | emptyMsgid
  | endOfInput
deriving DecidableEq, Repr

/-- `RE_TRANSLATORS_COMMENT.match(line)` followed by `.group(1)`. -/
def matchTranslators (line : Str) : Option Str :=
  (matchAt0 translatorsRE line).map fun caps => (getCap gText caps).getD []

/-- `RE_COMMENT.match(line)` followed by `.group(1)`. -/
def matchGenericComment (line : Str) : Option Str :=
  (matchAt0 commentRE line).map fun caps => (getCap gText caps).getD []

/-- `handleTranslatorsComment(line)`: returns the boolean result and the
updated global state.  A `// Translators:` line enters collecting mode and
appends its text; while collecting, a generic `// ` line appends its text;
any other line leaves collecting mode without touching the buffer. -/
def handleTranslatorsComment (st : GState) (line : Str) : Bool × GState :=
  match matchTranslators line with
  | some t =>
    (true, ⟨st.messages, true, st.lastTranslatorsComment ++ [t]⟩)
  | none =>
    if st.inTranslatorsComment then
      match matchGenericComment line with
      | some t =>
        (true, ⟨st.messages, st.inTranslatorsComment,
          st.lastTranslatorsComment ++ [t]⟩)
      | none => (false, ⟨st.messages, false, st.lastTranslatorsComment⟩)
    else (false, st)

/-- Is a key already present in the ordered map? -/
def hasKey (msgs : List (MsgKey × MsgData)) (k : MsgKey) : Bool :=
  msgs.any fun e => e.1 = k

/-- `data.setdefault("comments", []).extend(cs)` on one entry: append `cs`
to its comments (absence of the `"comments"` key is the empty list). -/
def extendData (cs : List Str) (d : MsgData) : MsgData :=
  ⟨d.msgid, d.context, d.pluralKey, d.plural, d.command, d.endv,
    d.comments ++ cs⟩

/-- Append `cs` to the `comments` of the entry at key `k`. -/
def extendComments (msgs : List (MsgKey × MsgData)) (k : MsgKey)
    (cs : List Str) : List (MsgKey × MsgData) :=
  msgs.map fun e => if e.1 = k then (e.1, extendData cs e.2) else e

/-- `addMessage(data)`: raise on a falsy msgid; `messages.setdefault(key,
data)` (insert at the end when the key is new, keep the existing entry
otherwise); if the pending comment buffer is non-empty, extend the entry's
comments with it and clear it. -/
def addMessage (st : GState) (data : MsgData) : Except Err GState :=
  if falsyOptStr data.msgid then .error .emptyMsgid
  else
    let k : MsgKey := (data.context, data.msgid.getD [])
    let msgs1 :=
      if hasKey st.messages k then st.messages else st.messages ++ [(k, data)]
    if st.lastTranslatorsComment.isEmpty then
      .ok ⟨msgs1, st.inTranslatorsComment, st.lastTranslatorsComment⟩
    else
      .ok ⟨extendComments msgs1 k st.lastTranslatorsComment,
        st.inTranslatorsComment, []⟩

/-- `m.groupdict()` for a match of `RE_CPP_TRANSLATE`. -/
def mkSimpleData (caps : Caps) : MsgData :=
  ⟨getCap gMsgid caps, none, false, none, none, getCap gEnd caps, []⟩

/-- `m.groupdict()` for a match of `RE_CPP_TRANSLATE_CTXT`. -/
def mkCtxtData (caps : Caps) : MsgData :=
  ⟨getCap gMsgid caps, getCap gContext caps, false, none, none,
    getCap gEnd caps, []⟩

/-- `m.groupdict()` for a match of `RE_CPP_TRANSLATE_PLURAL`. -/
def mkPluralData (caps : Caps) : MsgData :=
  ⟨getCap gMsgid caps, none, true, getCap gPlural caps, none,
    getCap gEnd caps, []⟩

/-- The `matches` list built in `addCpp`: all matches of the simple pattern,
then all matches of the contextual pattern, then all matches of the plural
pattern, each sublist in left-to-right order of position. -/
def findMatches (line : Str) : List MsgData :=
  (findIterGo simpleRE line none 0).map mkSimpleData
    ++ (findIterGo ctxtRE line none 0).map mkCtxtData
    ++ (findIterGo pluralRE line none 0).map mkPluralData

/-- Truthiness of `m.group("end")` (the `")"` of a terminated call). -/
def completeData (d : MsgData) : Bool := !falsyOptStr d.endv

/-- The `for m in matches:` loop of `addCpp`: skip matches whose captured
msgid is falsy (a runtime-computed argument); hand the rest to
`addMessage`, aborting on a raised error. -/
def processMatches : GState → List MsgData → GState × Option Err
  | st, [] => (st, none)
  | st, d :: ds =>
    if falsyOptStr d.msgid then processMatches st ds
    else
      match addMessage st d with
      | .ok st' => processMatches st' ds
      | .error e => (st, some e)

/-- The body of `addCpp`, as a structural recursion over the input lines.
The `while True:` accumulation loop of the Python code is carried in the
`pending` argument: `some buf` is an accumulated buffer on which some
translate call is still missing its closing parenthesis, so the next input
line is appended (`line += next(input)`, the separator newline made
explicit) and the buffer re-matched; `pending = none` means the previous
statement is finished, so the next line gets offered to the Comment Tracker
and then starts a fresh buffer.  `next` on exhausted input raises
`StopIteration`, modelled by `Err.endOfInput` when the lines run out while
a buffer is pending. -/
def addCppGo : List Str → GState → Option Str → GState × Option Err
  | [], st, none => (st, none)
  | [], st, some _ => (st, some .endOfInput)
  | line :: rest, st, some buf =>
    let buf2 := buf ++ '\n' :: line
    if (findMatches buf2).all completeData then
      match processMatches st (findMatches buf2) with
      | (st2, some e) => (st2, some e)
      | (st2, none) => addCppGo rest st2 none
    else addCppGo rest st (some buf2)
  | line :: rest, st, none =>
    match handleTranslatorsComment st line with
    | (true, st1) => addCppGo rest st1 none
    | (false, st1) =>
      if (findMatches line).all completeData then
        match processMatches st1 (findMatches line) with
        | (st2, some e) => (st2, some e)
        | (st2, none) => addCppGo rest st2 none
      else addCppGo rest st1 (some line)

/-- `addCpp(input)`. -/
def addCppLoop (lines : List Str) (st : GState) : GState × Option Err :=
  addCppGo lines st none

/-- `RE_RC_TRANSLATE.match(line)` with its two captured groups. -/
def matchRcLine (line : Str) : Option (Str × Str) :=
  (matchAt0 rcRE line).map fun caps =>
    ((getCap gCommand caps).getD [], (getCap gMsgid caps).getD [])

/-- The body of `addRc`: track the current context (set by `CAPTION` lines,
which then fall through to the insertion path like every other recognized
command); raise when a recognized line is reached with a falsy context;
skip empty msgids; insert everything else with the current context. -/
def addRcLoop : Option Str → List Str → GState → GState × Option Err
  | _, [], st => (st, none)
  | ctx, line :: rest, st =>
    match handleTranslatorsComment st line with
    | (true, st1) => addRcLoop ctx rest st1
    | (false, st1) =>
      match matchRcLine line with
      | none => addRcLoop ctx rest st1
      | some (cmd, msgid) =>
        let ctx2 := if cmd = chars "CAPTION" then some msgid else ctx
        if falsyOptStr ctx2 then (st1, some .noCaption)
        else if msgid.isEmpty then addRcLoop ctx2 rest st1
        else
          match addMessage st1 ⟨some msgid, ctx2, false, none, some cmd,
            none, []⟩ with
          | .ok st2 => addRcLoop ctx2 rest st2
          | .error e => (st1, some e)

/-- The fixed header block, written before any input file is read (the raw
string at the top of `makePot`; `\n` inside the quoted lines is a literal
backslash-n because the Python string is a raw string). -/
def header : Str :=
  chars "msgid \"\"\nmsgstr \"\"\n"
    ++ chars "\"Content-Type: text/plain; charset=UTF-8\\n\"\n"
    ++ chars "\"Content-Transfer-Encoding: 8bit\\n\"\n\n"

/-- Python `"%s" % x` for an optional string: `None` prints as `None`. -/
def pyPercentS : Option Str → Str
  | some s => s
  | none => chars "None"

/-- The serializer body for one entry of `messages` (the `for (context,
msgid), data in messages.items():` loop). -/
def renderEntry (e : MsgKey × MsgData) : Str :=
  (e.2.comments.map fun c => chars "#. " ++ c ++ ['\n']).flatten
    ++ (match e.1.1 with
        | some c => if c.isEmpty then [] else chars "msgctxt \"" ++ c ++ chars "\"\n"
        | none => [])
    ++ chars "msgid \"" ++ e.2.msgid.getD [] ++ chars "\"\n"
    ++ (if e.2.pluralKey then
          chars "msgid_plural \"" ++ pyPercentS e.2.plural ++ chars "\"\n"
            ++ chars "msgstr[0] \"\"\nmsgstr[1] \"\"\n"
        else chars "msgstr \"\"\n")
    ++ ['\n']

/-- An input file: its path (used only for the suffix dispatch) and its
lines. -/
structure SrcFile where
  path : Str
  lines : List Str
deriving DecidableEq, Repr

/-- Dispatch one source file by suffix, as the driver loop does. -/
def runFile (st : GState) (f : SrcFile) : GState × Option Err :=
  if (chars ".cpp").isSuffixOf f.path || (chars ".mm").isSuffixOf f.path then
    addCppLoop f.lines st
  else if (chars ".rc").isSuffixOf f.path then addRcLoop none f.lines st
  else (st, none)

/-- The scanning phase of `makePot`: process the files in order, stopping at
the first raised error and returning the state reached at that moment. -/
def scanSources : List SrcFile → GState → GState × Option Err
  | [], st => (st, none)
  | f :: fs, st =>
    match runFile st f with
    | (st1, none) => scanSources fs st1
    | (st1, some e) => (st1, some e)

/-- `makePot(target, source, env)` as observed through the target file: the
function opens the target (truncating it), writes the header, scans all
sources, and only then writes the entries; on a raised error the writing
loop is never reached, so the file holds exactly the header.  Returns the
final global state, the target file's content, and the error if any.  The
global state is *not* reset on entry: the caller passes whatever the
process accumulated so far. -/
def makePot (st : GState) (sources : List SrcFile) :
    GState × Str × Option Err :=
  match scanSources sources st with
  | (st1, some e) => (st1, header, some e)
  | (st1, none) => (st1, header ++ (st1.messages.map renderEntry).flatten, none)

/-! ### Sequences of Store insertions

The extractors reach the Catalog Store exclusively through `addMessage`;
between two insertions the Comment Tracker may have changed the pending
buffer arbitrarily.  An `InsOp` is one insertion call observed at that
boundary: the pending buffer at call time and the `data` argument. -/

structure InsOp where
  buf : List Str
  data : MsgData
deriving DecidableEq, Repr

/-- The key `(data.get("context"), data["msgid"])` computed by `addMessage`. -/
def keyOf (d : MsgData) : MsgKey := (d.context, d.msgid.getD [])

/-- Run a sequence of insertions: before each call the pending buffer holds
what the tracker accumulated, then `addMessage` runs; a raise aborts the
remaining sequence (leaving the store as it was, since `addMessage` raises
before touching it). -/
def applyOps : GState → List InsOp → GState
  | st, [] => st
  | st, op :: ops =>
    match addMessage ⟨st.messages, st.inTranslatorsComment, op.buf⟩ op.data with
    | .ok st' => applyOps st' ops
    | .error _ => st

/-- The data of the first insertion of key `k`, if any. -/
def firstWith (k : MsgKey) : List InsOp → Option MsgData
  | [] => none
  | op :: ops => if keyOf op.data = k then some op.data else firstWith k ops

/-- All pending-buffer lines consumed by insertions of key `k`, in order. -/
def bufsFor (k : MsgKey) (ops : List InsOp) : List Str :=
  ((ops.filter fun op => keyOf op.data = k).map fun op => op.buf).flatten

/-- The keys of the entries produced by a run, in first-insertion order:
keys already `seen` are dropped, new ones are appended at the end. -/
def newKeys (seen : List MsgKey) : List MsgKey → List MsgKey
  | [] => []
  | k :: ks =>
    if k ∈ seen then newKeys seen ks else k :: newKeys (seen ++ [k]) ks

theorem extendComments_map_fst (msgs : List (MsgKey × MsgData)) (k : MsgKey)
    (cs : List Str) : (extendComments msgs k cs).map Prod.fst = msgs.map Prod.fst := by
  induction msgs with
  | nil => rfl
  | cons e msgs ih =>
    by_cases h : e.1 = k
    · simpa [extendComments, h] using ih
    · simpa [extendComments, h] using ih

theorem hasKey_iff_mem (msgs : List (MsgKey × MsgData)) (k : MsgKey) :
    hasKey msgs k = true ↔ k ∈ msgs.map Prod.fst := by
  simp [hasKey, List.any_eq_true, List.mem_map]

theorem extendData_nil (d : MsgData) : extendData [] d = d := by
  simp [extendData]

theorem extendData_extendData (cs1 cs2 : List Str) (d : MsgData) :
    extendData cs2 (extendData cs1 d) = extendData (cs1 ++ cs2) d := by
  simp [extendData]

theorem extendComments_nil (msgs : List (MsgKey × MsgData)) (k : MsgKey) :
    extendComments msgs k [] = msgs := by
  induction msgs with
  | nil => rfl
  | cons e msgs ih =>
    by_cases h : e.1 = k
    · simp [extendComments, h, extendData_nil]
    · simpa [extendComments, h] using ih

/-- The normal-form result of a successful `addMessage` call: look up or
append the entry, then extend its comments by the pending buffer, which is
cleared (extension by the empty buffer is the identity). -/
theorem addMessage_ok (m : List (MsgKey × MsgData)) (f : Bool) (b : List Str)
    (d : MsgData) (h : falsyOptStr d.msgid = false) :
    addMessage ⟨m, f, b⟩ d =
      .ok ⟨extendComments
        (if hasKey m (keyOf d) then m else m ++ [(keyOf d, d)]) (keyOf d) b,
        f, []⟩ := by
  cases b with
  | nil => simp [addMessage, h, keyOf, extendComments_nil]
  | cons c cs => simp [addMessage, h, keyOf]

theorem hasKey_extendComments (m : List (MsgKey × MsgData)) (k' k : MsgKey)
    (cs : List Str) : hasKey (extendComments m k' cs) k = hasKey m k := by
  induction m with
  | nil => rfl
  | cons e m ih =>
    by_cases h : e.1 = k'
    · simpa [extendComments, hasKey, h] using congrArg (fun x => decide (e.1 = k) || x) ih
    · simpa [extendComments, hasKey, h] using congrArg (fun x => decide (e.1 = k) || x) ih

theorem hasKey_append_single (m : List (MsgKey × MsgData)) (k' k : MsgKey)
    (d : MsgData) : hasKey (m ++ [(k', d)]) k = (hasKey m k || decide (k' = k)) := by
  simp [hasKey, List.any_append]

theorem filter_eq_nil_of_not_hasKey (m : List (MsgKey × MsgData)) (k : MsgKey)
    (h : hasKey m k = false) : m.filter (fun e => e.1 = k) = [] := by
  induction m with
  | nil => rfl
  | cons e m ih =>
    simp only [hasKey, List.any_cons, Bool.or_eq_false_iff] at h
    rw [List.filter_cons, h.1]
    simp only [Bool.false_eq_true, if_false]
    exact ih h.2

theorem filter_extendComments_eq (m : List (MsgKey × MsgData)) (k : MsgKey)
    (cs : List Str) :
    (extendComments m k cs).filter (fun e => e.1 = k) =
      (m.filter (fun e => e.1 = k)).map (fun e => (e.1, extendData cs e.2)) := by
  induction m with
  | nil => rfl
  | cons e m ih =>
    by_cases h : e.1 = k
    · simpa [extendComments, h] using ih
    · simpa [extendComments, h] using ih

theorem filter_extendComments_ne (m : List (MsgKey × MsgData)) (k' k : MsgKey)
    (cs : List Str) (hk : k' ≠ k) :
    (extendComments m k' cs).filter (fun e => e.1 = k) =
      m.filter (fun e => e.1 = k) := by
  induction m with
  | nil => rfl
  | cons e m ih =>
    by_cases h : e.1 = k'
    · have h2 : ¬(e.1 = k) := by rw [h]; exact hk
      simpa [extendComments, h, h2, hk, Ne.symm hk] using ih
    · by_cases h2 : e.1 = k
      · simpa [extendComments, h, h2, hk, Ne.symm hk] using ih
      · simpa [extendComments, h, h2] using ih

theorem applyOps_filterKey (ops : List InsOp) (st : GState) (k : MsgKey)
    (h : ∀ op ∈ ops, falsyOptStr op.data.msgid = false) :
    (applyOps st ops).messages.filter (fun e => e.1 = k) =
      if hasKey st.messages k then
        (st.messages.filter fun e => e.1 = k).map
          (fun e => (e.1, extendData (bufsFor k ops) e.2))
      else
        match firstWith k ops with
        | none => []
        | some d => [(k, extendData (bufsFor k ops) d)] := by
  induction ops generalizing st with
  | nil =>
    by_cases hk : hasKey st.messages k = true
    · simp [applyOps, hk, bufsFor, extendData_nil]
    · simp [applyOps, hk, bufsFor, firstWith,
        filter_eq_nil_of_not_hasKey _ _ (by simpa using hk)]
  | cons op ops ih =>
    have hop := h op (List.mem_cons_self _ _)
    have hops : ∀ o ∈ ops, falsyOptStr o.data.msgid = false :=
      fun o ho => h o (List.mem_cons_of_mem _ ho)
    simp only [applyOps,
      addMessage_ok st.messages st.inTranslatorsComment op.buf op.data hop]
    rw [ih _ hops]
    dsimp only
    by_cases hkk : keyOf op.data = k
    · rw [hkk]
      have hb : bufsFor k (op :: ops) = op.buf ++ bufsFor k ops := by
        simp [bufsFor, List.filter_cons, hkk]
      by_cases hsk : hasKey st.messages k = true
      · simp only [hsk, if_true, hasKey_extendComments,
          filter_extendComments_eq, List.map_map, hb]
        apply List.map_congr_left
        intro e _
        simp [extendData_extendData, Function.comp]
      · rw [Bool.not_eq_true] at hsk
        have hfw : firstWith k (op :: ops) = some op.data := by
          simp [firstWith, hkk]
        simp only [hsk, Bool.false_eq_true, if_false, hasKey_extendComments,
          hasKey_append_single, Bool.false_or, filter_extendComments_eq,
          List.filter_append, filter_eq_nil_of_not_hasKey _ _ hsk, hfw, hb,
          List.nil_append]
        simp [extendData_extendData]
    · have hb : bufsFor k (op :: ops) = bufsFor k ops := by
        simp [bufsFor, List.filter_cons, hkk]
      have hfw : firstWith k (op :: ops) = firstWith k ops := by
        simp [firstWith, hkk]
      rw [hb, hfw, hasKey_extendComments,
        filter_extendComments_ne _ _ _ _ hkk]
      by_cases hsk : hasKey st.messages (keyOf op.data) = true
      · simp [hsk]
      · simp [hsk, hasKey_append_single, List.filter_append, hkk]

theorem applyOps_map_fst (ops : List InsOp) (st : GState)
    (h : ∀ op ∈ ops, falsyOptStr op.data.msgid = false) :
    (applyOps st ops).messages.map Prod.fst =
      st.messages.map Prod.fst
        ++ newKeys (st.messages.map Prod.fst) (ops.map fun op => keyOf op.data) := by
  induction ops generalizing st with
  | nil => simp [applyOps, newKeys]
  | cons op ops ih =>
    have hop := h op (List.mem_cons_self _ _)
    have hops : ∀ o ∈ ops, falsyOptStr o.data.msgid = false :=
      fun o ho => h o (List.mem_cons_of_mem _ ho)
    simp only [applyOps,
      addMessage_ok st.messages st.inTranslatorsComment op.buf op.data hop]
    rw [ih _ hops]
    dsimp only
    rw [extendComments_map_fst]
    by_cases hsk : hasKey st.messages (keyOf op.data) = true
    · have hmem : keyOf op.data ∈ st.messages.map Prod.fst :=
        (hasKey_iff_mem _ _).mp hsk
      simp [hsk, newKeys, hmem]
    · have hmem : keyOf op.data ∉ st.messages.map Prod.fst := by
        intro hx; exact hsk ((hasKey_iff_mem _ _).mpr hx)
      simp [hsk, newKeys, hmem, List.map_append]

/-! ### Scanning never removes entries (the store is not reset) -/

theorem handleTranslatorsComment_messages (st : GState) (line : Str) :
    ((handleTranslatorsComment st line).2).messages = st.messages := by
  unfold handleTranslatorsComment
  rcases matchTranslators line with _ | t
  · by_cases hf : st.inTranslatorsComment = true
    · rcases matchGenericComment line with _ | t <;> simp [hf]
    · simp [hf]
  · simp

theorem hasKey_mono_addMessage (m : List (MsgKey × MsgData)) (f : Bool)
    (b : List Str) (d : MsgData) (st' : GState)
    (h : addMessage ⟨m, f, b⟩ d = .ok st') (k : MsgKey)
    (hk : hasKey m k = true) : hasKey st'.messages k = true := by
  by_cases hf : falsyOptStr d.msgid = true
  · simp [addMessage, hf] at h
  · rw [Bool.not_eq_true] at hf
    rw [addMessage_ok _ _ _ _ hf] at h
    have h2 := Except.ok.inj h
    rw [← h2]
    dsimp only
    rw [hasKey_extendComments]
    by_cases hs : hasKey m (keyOf d) = true
    · simpa [hs] using hk
    · simp [hs, hasKey_append_single, hk]

theorem hasKey_mono_processMatches (ds : List MsgData) (st : GState)
    (k : MsgKey) (hk : hasKey st.messages k = true) :
    hasKey (processMatches st ds).1.messages k = true := by
  induction ds generalizing st with
  | nil => simpa [processMatches] using hk
  | cons d ds ih =>
    rw [processMatches]
    by_cases hf : falsyOptStr d.msgid = true
    · simp only [hf, if_true]
      exact ih st hk
    · simp only [hf, Bool.false_eq_true, if_false]
      rcases ha : addMessage st d with e | st2
      · simpa using hk
      · have : st = GState.mk st.messages st.inTranslatorsComment
            st.lastTranslatorsComment := rfl
        rw [this] at ha
        exact ih st2 (hasKey_mono_addMessage _ _ _ _ _ ha k hk)

theorem hasKey_mono_addCppGo (lines : List Str) (st : GState)
    (pending : Option Str) (k : MsgKey) (hk : hasKey st.messages k = true) :
    hasKey (addCppGo lines st pending).1.messages k = true := by
  induction lines generalizing st pending with
  | nil => cases pending <;> simpa [addCppGo] using hk
  | cons line rest ih =>
    cases pending with
    | some buf =>
      rw [addCppGo]
      by_cases hc : (findMatches (buf ++ '\n' :: line)).all completeData = true
      · simp only [hc, if_true]
        rcases hp : processMatches st (findMatches (buf ++ '\n' :: line))
          with ⟨st2, oe⟩
        have h2 : hasKey st2.messages k = true := by
          have := hasKey_mono_processMatches
            (findMatches (buf ++ '\n' :: line)) st k hk
          rwa [hp] at this
        cases oe with
        | none => exact ih st2 none h2
        | some e => simpa using h2
      · simp only [hc, Bool.false_eq_true, if_false]
        exact ih st (some (buf ++ '\n' :: line)) hk
    | none =>
      rw [addCppGo]
      rcases hh : handleTranslatorsComment st line with ⟨consumed, st1⟩
      have h1 : hasKey st1.messages k = true := by
        have := handleTranslatorsComment_messages st line
        rw [hh] at this
        dsimp at this
        rwa [this]
      cases consumed with
      | true => exact ih st1 none h1
      | false =>
        by_cases hc : (findMatches line).all completeData = true
        · simp only [hc, if_true]
          rcases hp : processMatches st1 (findMatches line) with ⟨st2, oe⟩
          have h2 : hasKey st2.messages k = true := by
            have := hasKey_mono_processMatches (findMatches line) st1 k h1
            rwa [hp] at this
          cases oe with
          | none => exact ih st2 none h2
          | some e => simpa using h2
        · simp only [hc, Bool.false_eq_true, if_false]
          exact ih st1 (some line) h1

theorem hasKey_mono_addRcLoop (lines : List Str) (ctx : Option Str)
    (st : GState) (k : MsgKey) (hk : hasKey st.messages k = true) :
    hasKey (addRcLoop ctx lines st).1.messages k = true := by
  induction lines generalizing ctx st with
  | nil => simpa [addRcLoop] using hk
  | cons line rest ih =>
    rw [addRcLoop]
    rcases hh : handleTranslatorsComment st line with ⟨consumed, st1⟩
    have h1 : hasKey st1.messages k = true := by
      have := handleTranslatorsComment_messages st line
      rw [hh] at this
      dsimp at this
      rwa [this]
    cases consumed with
    | true => exact ih ctx st1 h1
    | false =>
      rcases matchRcLine line with _ | ⟨cmd, msgid⟩
      · exact ih ctx st1 h1
      · dsimp only
        by_cases hctx : falsyOptStr
            (if cmd = chars "CAPTION" then some msgid else ctx) = true
        · simpa [hctx] using h1
        · simp only [hctx, Bool.false_eq_true, if_false]
          by_cases hm : msgid.isEmpty = true
          · simp only [hm, if_true]
            exact ih _ st1 h1
          · simp only [hm, Bool.false_eq_true, if_false]
            rcases ha : addMessage st1 ⟨some msgid,
              if cmd = chars "CAPTION" then some msgid else ctx, false, none,
              some cmd, none, []⟩ with e | st2
            · simpa using h1
            · have heq : st1 = GState.mk st1.messages st1.inTranslatorsComment
                  st1.lastTranslatorsComment := rfl
              rw [heq] at ha
              exact ih _ st2 (hasKey_mono_addMessage _ _ _ _ _ ha k h1)

theorem hasKey_mono_scanSources (sources : List SrcFile) (st : GState)
    (k : MsgKey) (hk : hasKey st.messages k = true) :
    hasKey (scanSources sources st).1.messages k = true := by
  induction sources generalizing st with
  | nil => simpa [scanSources] using hk
  | cons f fs ih =>
    rw [scanSources]
    have hr : hasKey (runFile st f).1.messages k = true := by
      unfold runFile
      by_cases h1 : ((chars ".cpp").isSuffixOf f.path
          || (chars ".mm").isSuffixOf f.path) = true
      · simpa [h1] using hasKey_mono_addCppGo f.lines st none k hk
      · simp only [h1, Bool.false_eq_true, if_false]
        by_cases h2 : (chars ".rc").isSuffixOf f.path = true
        · simpa [h2] using hasKey_mono_addRcLoop f.lines none st k hk
        · simpa [h2] using hk
    rcases hf : runFile st f with ⟨st1, oe⟩
    rw [hf] at hr
    cases oe with
    | none => exact ih st1 hr
    | some e => simpa using hr

/-! ### Claim theorems -/

/-- **C1** (counterexample to the claim as stated): on a fatal error
(`LTEXT` before any `CAPTION`) the run aborts, yet the target file already
holds the non-empty header block — partial catalog output is written,
because `makePot` opens (truncating) the target and writes the header
before scanning any input. -/
theorem makePot_partial_header_on_error_cex :
    (makePot cleanState [⟨chars "dialog.rc", [chars "LTEXT \"Name\""]⟩]).2 =
      (header, some Err.noCaption) ∧ header ≠ [] := by
  constructor <;> decide

/-- **C1** (amended): the *entry section* is all-or-nothing — on any fatal
error during the scan the target file holds exactly the fixed header (which
was written before scanning started), and entries are emitted only after
the full scan succeeds. -/
theorem makePot_error_emits_header_only (st : GState) (sources : List SrcFile)
    (e : Err) (h : (scanSources sources st).2 = some e) :
    (makePot st sources).2.1 = header ∧ header ≠ [] := by
  refine ⟨?_, by decide⟩
  unfold makePot
  rcases hs : scanSources sources st with ⟨st1, oe⟩
  rw [hs] at h
  dsimp at h
  subst h
  rfl

theorem makePot_error_emits_header_only_wit :
    (scanSources [⟨chars "dialog.rc", [chars "LTEXT \"Name\""]⟩]
        cleanState).2 = some Err.noCaption ∧
    ((makePot cleanState [⟨chars "dialog.rc", [chars "LTEXT \"Name\""]⟩]).2.1
        = header ∧ header ≠ []) :=
  ⟨by decide, makePot_error_emits_header_only cleanState
    [⟨chars "dialog.rc", [chars "LTEXT \"Name\""]⟩] Err.noCaption (by decide)⟩

/-- **C2**: for every sequence of Insert calls (with arbitrary pending
comment buffers between them), the Catalog Store holds at most one entry
per key; the entry's fields (`msgid`, `context`, `plural` — including the
presence flag of the `"plural"` key) are exactly those supplied at the
first insertion of the key, and later insertions of the same key only
append the pending comment buffers to the entry's comments. -/
theorem addMessage_first_writer_wins (ops : List InsOp) (k : MsgKey)
    (h : ∀ op ∈ ops, falsyOptStr op.data.msgid = false) :
    ((applyOps cleanState ops).messages.filter (fun e => e.1 = k)).length ≤ 1 ∧
    (applyOps cleanState ops).messages.filter (fun e => e.1 = k) =
      (match firstWith k ops with
       | none => []
       | some d => [(k, extendData (bufsFor k ops) d)]) := by
  have h2 := applyOps_filterKey ops cleanState k h
  have h3 : hasKey cleanState.messages k = false := rfl
  rw [h3] at h2
  simp only [Bool.false_eq_true, if_false] at h2
  refine ⟨?_, h2⟩
  rw [h2]
  cases firstWith k ops <;> simp

theorem addMessage_first_writer_wins_wit :
    (∀ op ∈ [InsOp.mk [chars "hint"]
        ⟨some (chars "m"), none, false, none, none, some [')'], []⟩,
      InsOp.mk []
        ⟨some (chars "m"), none, true, some (chars "ms"), none, some [')'], []⟩],
      falsyOptStr op.data.msgid = false) ∧
    (((applyOps cleanState [InsOp.mk [chars "hint"]
        ⟨some (chars "m"), none, false, none, none, some [')'], []⟩,
      InsOp.mk []
        ⟨some (chars "m"), none, true, some (chars "ms"), none, some [')'], []⟩]).messages.filter
          (fun e => e.1 = ((none : Option Str), chars "m"))).length ≤ 1 ∧
      (applyOps cleanState [InsOp.mk [chars "hint"]
        ⟨some (chars "m"), none, false, none, none, some [')'], []⟩,
      InsOp.mk []
        ⟨some (chars "m"), none, true, some (chars "ms"), none, some [')'], []⟩]).messages.filter
          (fun e => e.1 = ((none : Option Str), chars "m")) =
        (match firstWith ((none : Option Str), chars "m")
            [InsOp.mk [chars "hint"]
              ⟨some (chars "m"), none, false, none, none, some [')'], []⟩,
            InsOp.mk []
              ⟨some (chars "m"), none, true, some (chars "ms"), none, some [')'], []⟩] with
         | none => []
         | some d => [(((none : Option Str), chars "m"),
            extendData (bufsFor ((none : Option Str), chars "m")
              [InsOp.mk [chars "hint"]
                ⟨some (chars "m"), none, false, none, none, some [')'], []⟩,
              InsOp.mk []
                ⟨some (chars "m"), none, true, some (chars "ms"), none, some [')'], []⟩]) d)])) :=
  ⟨by decide, addMessage_first_writer_wins _ _ (by decide)⟩

/-- **C5** (counterexample to the claim as stated): on the line
`translate_ctxt("c", "a") translate("b")` the contextual call appears to
the left of the simple call, yet `"b"` is inserted before `"a"`, because
`addCpp` concatenates the match lists pattern by pattern (all simple
matches, then all contextual, then all plural) rather than sorting by
position. -/
theorem cpp_insert_order_grouped_cex :
    (addCppLoop [chars "translate_ctxt(\"c\", \"a\") translate(\"b\")"]
        cleanState).1.messages.map Prod.fst =
      [(none, chars "b"), (some (chars "c"), chars "a")] ∧
    ((none : Option Str), chars "b") ≠ ((some (chars "c") : Option Str), chars "a") := by
  constructor <;> decide

/-- Stripping the position tags from the instrumented scan recovers the
scan used by the embedding: `findIterPos` and `findIterGo` report the same
captures in the same order. -/
theorem findIterPos_map_snd (re : RE) (s : Str) (prev : Option Char)
    (skip i : Nat) :
    (findIterPos re s prev skip i).map Prod.snd = findIterGo re s prev skip := by
  induction s generalizing prev skip i with
  | nil => rfl
  | cons a s ih =>
    cases skip with
    | succ n =>
      rw [findIterPos, findIterGo]
      exact ih _ _ _
    | zero =>
      rw [findIterPos, findIterGo]
      by_cases hb : boundaryBlocked prev = true
      · rw [if_pos hb, if_pos hb]
        exact ih _ _ _
      · rw [if_neg hb, if_neg hb]
        cases h : tryMatchAt re (a :: s) with
        | none => exact ih _ _ _
        | some cr =>
          obtain ⟨caps, rest⟩ := cr
          rw [List.map_cons, ih]

/-- Every match reported by the instrumented scan lies at or beyond the
current scan position plus the pending skip. -/
theorem findIterPos_fst_ge (re : RE) (s : Str) (prev : Option Char)
    (skip i : Nat) :
    ∀ pc ∈ findIterPos re s prev skip i, i + skip ≤ pc.1 := by
  induction s generalizing prev skip i with
  | nil => intro pc h; simp [findIterPos] at h
  | cons a s ih =>
    intro pc hpc
    cases skip with
    | succ n =>
      rw [findIterPos] at hpc
      have := ih (some a) n (i + 1) pc hpc
      omega
    | zero =>
      rw [findIterPos] at hpc
      by_cases hb : boundaryBlocked prev = true
      · rw [if_pos hb] at hpc
        have := ih (some a) 0 (i + 1) pc hpc
        omega
      · rw [if_neg hb] at hpc
        cases h : tryMatchAt re (a :: s) with
        | none =>
          rw [h] at hpc
          have := ih (some a) 0 (i + 1) pc hpc
          omega
        | some cr =>
          obtain ⟨caps, rest⟩ := cr
          rw [h] at hpc
          rcases List.mem_cons.mp hpc with rfl | hpc2
          · omega
          · have := ih (some a) _ (i + 1) pc hpc2
            omega

/-- The instrumented scan reports matches at strictly increasing absolute
positions: within one pattern, occurrences are handed over in left-to-right
order of appearance on the scanned text. -/
theorem findIterPos_chain (re : RE) (s : Str) (prev : Option Char)
    (skip i : Nat) :
    List.Chain' (fun p q => p < q)
      ((findIterPos re s prev skip i).map Prod.fst) := by
  induction s generalizing prev skip i with
  | nil => simp [findIterPos]
  | cons a s ih =>
    cases skip with
    | succ n =>
      rw [findIterPos]
      exact ih _ _ _
    | zero =>
      rw [findIterPos]
      by_cases hb : boundaryBlocked prev = true
      · rw [if_pos hb]
        exact ih _ _ _
      · rw [if_neg hb]
        cases h : tryMatchAt re (a :: s) with
        | none => exact ih _ _ _
        | some cr =>
          obtain ⟨caps, rest⟩ := cr
          rw [List.map_cons]
          refine List.chain'_cons'.mpr ⟨?_, ih _ _ _⟩
          intro q hq
          have hqmem : q ∈ (findIterPos re s (some a)
              ((a :: s).length - rest.length - 1) (i + 1)).map Prod.fst :=
            List.mem_of_mem_head? hq
          obtain ⟨pc, hpc, rfl⟩ := List.mem_map.mp hqmem
          have := findIterPos_fst_ge re s (some a) _ (i + 1) pc hpc
          omega

/-- Every pair `(p, caps)` reported by the instrumented scan is a genuine
occurrence: the pattern matches the suffix of the scanned text that starts
`p - i` characters in (so, for a scan started at position `0`, the suffix
starting at position `p`) with exactly those captures. -/
theorem findIterPos_genuine (re : RE) (s : Str) (prev : Option Char)
    (skip i : Nat) :
    ∀ pc ∈ findIterPos re s prev skip i,
      ∃ rest, tryMatchAt re (s.drop (pc.1 - i)) = some (pc.2, rest) := by
  induction s generalizing prev skip i with
  | nil => intro pc h; simp [findIterPos] at h
  | cons a s ih =>
    intro pc hpc
    cases skip with
    | succ n =>
      rw [findIterPos] at hpc
      have hge := findIterPos_fst_ge re s (some a) n (i + 1) pc hpc
      have hrec := ih (some a) n (i + 1) pc hpc
      have hdrop : (a :: s).drop (pc.1 - i) = s.drop (pc.1 - (i + 1)) := by
        have h1 : pc.1 - i = (pc.1 - (i + 1)) + 1 := by omega
        rw [h1, List.drop_succ_cons]
      rwa [hdrop]
    | zero =>
      rw [findIterPos] at hpc
      by_cases hb : boundaryBlocked prev = true
      · rw [if_pos hb] at hpc
        have hge := findIterPos_fst_ge re s (some a) 0 (i + 1) pc hpc
        have hrec := ih (some a) 0 (i + 1) pc hpc
        have hdrop : (a :: s).drop (pc.1 - i) = s.drop (pc.1 - (i + 1)) := by
          have h1 : pc.1 - i = (pc.1 - (i + 1)) + 1 := by omega
          rw [h1, List.drop_succ_cons]
        rwa [hdrop]
      · rw [if_neg hb] at hpc
        cases h : tryMatchAt re (a :: s) with
        | none =>
          rw [h] at hpc
          have hge := findIterPos_fst_ge re s (some a) 0 (i + 1) pc hpc
          have hrec := ih (some a) 0 (i + 1) pc hpc
          have hdrop : (a :: s).drop (pc.1 - i) = s.drop (pc.1 - (i + 1)) := by
            have h1 : pc.1 - i = (pc.1 - (i + 1)) + 1 := by omega
            rw [h1, List.drop_succ_cons]
          rwa [hdrop]
        | some cr =>
          obtain ⟨caps, rest⟩ := cr
          rw [h] at hpc
          rcases List.mem_cons.mp hpc with rfl | hpc2
          · exact ⟨rest, by simpa using h⟩
          · have hge := findIterPos_fst_ge re s (some a) _ (i + 1) pc hpc2
            have hrec := ih (some a) _ (i + 1) pc hpc2
            have hdrop : (a :: s).drop (pc.1 - i) = s.drop (pc.1 - (i + 1)) := by
              have h1 : pc.1 - i = (pc.1 - (i + 1)) + 1 := by omega
              rw [h1, List.drop_succ_cons]
            rwa [hdrop]

/-- **C5** (amended): for *every* line, the list of occurrences handed to
the insertion loop is grouped by call shape — all simple-call matches
first, then all contextual ones, then all plural ones — where each group
is the position-instrumented scan of its own pattern; within each group
the positions are strictly increasing (left-to-right order of appearance),
and each reported capture is a genuine match of its pattern at its
position.  Left-to-right order across different shapes does not hold (see
the counterexample). -/
theorem cpp_insert_order_by_shape (line : Str) :
    (findMatches line
        = ((findIterPos simpleRE line none 0 0).map fun pc => mkSimpleData pc.2)
          ++ ((findIterPos ctxtRE line none 0 0).map fun pc => mkCtxtData pc.2)
          ++ ((findIterPos pluralRE line none 0 0).map fun pc => mkPluralData pc.2))
      ∧ List.Chain' (fun p q => p < q)
          ((findIterPos simpleRE line none 0 0).map Prod.fst)
      ∧ List.Chain' (fun p q => p < q)
          ((findIterPos ctxtRE line none 0 0).map Prod.fst)
      ∧ List.Chain' (fun p q => p < q)
          ((findIterPos pluralRE line none 0 0).map Prod.fst)
      ∧ (∀ pc ∈ findIterPos simpleRE line none 0 0,
          ∃ rest, tryMatchAt simpleRE (line.drop pc.1) = some (pc.2, rest))
      ∧ (∀ pc ∈ findIterPos ctxtRE line none 0 0,
          ∃ rest, tryMatchAt ctxtRE (line.drop pc.1) = some (pc.2, rest))
      ∧ (∀ pc ∈ findIterPos pluralRE line none 0 0,
          ∃ rest, tryMatchAt pluralRE (line.drop pc.1) = some (pc.2, rest)) := by
  refine ⟨?_, findIterPos_chain _ _ _ _ _, findIterPos_chain _ _ _ _ _,
    findIterPos_chain _ _ _ _ _, ?_, ?_, ?_⟩
  · unfold findMatches
    rw [← findIterPos_map_snd simpleRE line none 0 0,
        ← findIterPos_map_snd ctxtRE line none 0 0,
        ← findIterPos_map_snd pluralRE line none 0 0,
        List.map_map, List.map_map, List.map_map]
    rfl
  all_goals
    intro pc hpc
    have := findIterPos_genuine _ line none 0 0 pc hpc
    simpa using this

/-- Witness for C5 (amended): the grouped decomposition evaluated on the
counterexample line, via the universal theorem. -/
theorem cpp_insert_order_by_shape_wit :
    findMatches (chars "translate_ctxt(\"c\", \"a\") translate(\"b\")")
        = ((findIterPos simpleRE
              (chars "translate_ctxt(\"c\", \"a\") translate(\"b\")")
              none 0 0).map fun pc => mkSimpleData pc.2)
          ++ ((findIterPos ctxtRE
              (chars "translate_ctxt(\"c\", \"a\") translate(\"b\")")
              none 0 0).map fun pc => mkCtxtData pc.2)
          ++ ((findIterPos pluralRE
              (chars "translate_ctxt(\"c\", \"a\") translate(\"b\")")
              none 0 0).map fun pc => mkPluralData pc.2) :=
  (cpp_insert_order_by_shape
    (chars "translate_ctxt(\"c\", \"a\") translate(\"b\")")).1

/-- **C6** (counterexample to the claim as stated): the process-wide state
is *not* reset by `makePot`; a second sequential invocation in the same
process starts from the first run's store and re-appends the translator
comment to the existing entry, so its output differs from the first
run's. -/
theorem makePot_state_not_reset_cex :
    (makePot (makePot cleanState
        [⟨chars "main.cpp", [chars "// Translators: A", chars "translate(\"m\")"]⟩]).1
        [⟨chars "main.cpp", [chars "// Translators: A", chars "translate(\"m\")"]⟩]).2.1 ≠
      (makePot cleanState
        [⟨chars "main.cpp", [chars "// Translators: A", chars "translate(\"m\")"]⟩]).2.1 := by
  decide

/-- **C6** (amended): `makePot` is a pure function of the inherited process
state and the inputs (so runs from equal states on equal inputs agree), but
it does not reset the process-wide store: every entry present before an
invocation is still present in the store afterwards, fatal error or not. -/
theorem scan_preserves_existing_entries (st : GState)
    (sources : List SrcFile) (k : MsgKey)
    (h : hasKey st.messages k = true) :
    hasKey (makePot st sources).1.messages k = true := by
  unfold makePot
  rcases hs : scanSources sources st with ⟨st1, oe⟩
  have := hasKey_mono_scanSources sources st k h
  rw [hs] at this
  cases oe <;> simpa using this

theorem scan_preserves_existing_entries_wit :
    hasKey (GState.mk [(((none : Option Str), chars "old"),
        ⟨some (chars "old"), none, false, none, none, some [')'], []⟩)]
        false []).messages ((none : Option Str), chars "old") = true ∧
    hasKey (makePot (GState.mk [(((none : Option Str), chars "old"),
        ⟨some (chars "old"), none, false, none, none, some [')'], []⟩)]
        false [])
        [⟨chars "main.cpp", [chars "translate(\"new\")"]⟩]).1.messages
      ((none : Option Str), chars "old") = true :=
  ⟨by decide, scan_preserves_existing_entries _ _ _ (by decide)⟩

/-- **C7**: the Catalog Store (walked in order by the serializer) lists its
entries in the order in which each entry's key was first inserted; later
re-occurrences of a key never change an entry's position. -/
theorem catalog_order_first_insertion (ops : List InsOp)
    (h : ∀ op ∈ ops, falsyOptStr op.data.msgid = false) :
    (applyOps cleanState ops).messages.map Prod.fst =
      newKeys [] (ops.map fun op => keyOf op.data) := by
  have h2 := applyOps_map_fst ops cleanState h
  simpa [cleanState] using h2

theorem catalog_order_first_insertion_wit :
    (∀ op ∈ [InsOp.mk [] ⟨some (chars "x"), none, false, none, none, some [')'], []⟩,
      InsOp.mk [] ⟨some (chars "y"), none, false, none, none, some [')'], []⟩,
      InsOp.mk [] ⟨some (chars "x"), none, false, none, none, some [')'], []⟩],
      falsyOptStr op.data.msgid = false) ∧
    (applyOps cleanState
        [InsOp.mk [] ⟨some (chars "x"), none, false, none, none, some [')'], []⟩,
        InsOp.mk [] ⟨some (chars "y"), none, false, none, none, some [')'], []⟩,
        InsOp.mk [] ⟨some (chars "x"), none, false, none, none, some [')'], []⟩]).messages.map
          Prod.fst =
      newKeys [] ([InsOp.mk [] ⟨some (chars "x"), none, false, none, none, some [')'], []⟩,
        InsOp.mk [] ⟨some (chars "y"), none, false, none, none, some [')'], []⟩,
        InsOp.mk [] ⟨some (chars "x"), none, false, none, none, some [')'], []⟩].map
          fun op => keyOf op.data) :=
  ⟨by decide, catalog_order_first_insertion _ (by decide)⟩

/-- **C9**: the Store's insert boundary raises exactly on a falsy msgid
(`None` or the empty string), and the source-dialect extractor discards a
match with falsy msgid before `addMessage` is invoked — the skipped match
contributes no entry and no error. -/
theorem insert_error_iff_falsy_msgid (st : GState) (d : MsgData)
    (ds : List MsgData) :
    ((∃ e, addMessage st d = .error e) ↔ falsyOptStr d.msgid = true) ∧
    (falsyOptStr d.msgid = true →
      processMatches st (d :: ds) = processMatches st ds) := by
  constructor
  · constructor
    · rintro ⟨e, he⟩
      by_cases hf : falsyOptStr d.msgid = true
      · exact hf
      · exfalso
        rw [Bool.not_eq_true] at hf
        rw [addMessage] at he
        rw [hf] at he
        simp only [Bool.false_eq_true, if_false] at he
        split at he <;> simp at he
    · intro hf
      exact ⟨.emptyMsgid, by rw [addMessage, hf]; rfl⟩
  · intro hf
    rw [processMatches, hf]
    rfl

theorem insert_error_iff_falsy_msgid_wit :
    ((∃ e, addMessage cleanState
        ⟨some [], none, false, none, none, some [')'], []⟩ = .error e) ↔
      falsyOptStr (some ([] : Str)) = true) ∧
    (falsyOptStr (some ([] : Str)) = true →
      processMatches cleanState
          [⟨some [], none, false, none, none, some [')'], []⟩] =
        processMatches cleanState []) :=
  insert_error_iff_falsy_msgid cleanState
    ⟨some [], none, false, none, none, some [')'], []⟩ []

/-! ### Symbolic evaluation lemmas for the matcher -/

theorem matchRE_lit_append (cs rest : Str) (caps : Caps)
    (k : Str → Caps → Option A) :
    matchRE (.lit cs) (cs ++ rest) caps k = k rest caps := by
  have hp : cs.isPrefixOf (cs ++ rest) = true := by
    rw [List.isPrefixOf_iff_prefix]; exact List.prefix_append cs rest
  simp [matchRE, hp]

theorem matchRE_lit_not_prefix (cs s : Str) (caps : Caps)
    (k : Str → Caps → Option A) (h : cs.isPrefixOf s = false) :
    matchRE (.lit cs) s caps k = none := by
  simp [matchRE, h]

theorem mem_of_isPrefixOf (cs s : Str) (h : cs.isPrefixOf s = true) :
    ∀ x ∈ cs, x ∈ s := by
  rw [List.isPrefixOf_iff_prefix] at h
  exact fun x hx => h.subset hx

/-- A greedy star over characters that all belong to the class consumes the
whole input when the continuation accepts the empty remainder. -/
theorem tryStarG_all (p : Char → Bool) (s : Str) (caps : Caps)
    (k : Str → Caps → Option A) (r : A) (hall : ∀ c ∈ s, p c = true)
    (hsucc : k [] caps = some r) : tryStarG p s caps k = some r := by
  induction s with
  | nil => simpa [tryStarG] using hsucc
  | cons a s ih =>
    have ha := hall a (List.mem_cons_self _ _)
    rw [tryStarG, ha]
    simp only [if_true]
    rw [ih fun c hc => hall c (List.mem_cons_of_mem _ hc)]

/-- A greedy star stops right before a character outside the class when the
continuation accepts the remainder starting there. -/
theorem tryStarG_stop (p : Char → Bool) (xs : Str) (y : Char) (rest : Str)
    (caps : Caps) (k : Str → Caps → Option A) (r : A)
    (hall : ∀ c ∈ xs, p c = true) (hy : p y = false)
    (hsucc : k (y :: rest) caps = some r) :
    tryStarG p (xs ++ y :: rest) caps k = some r := by
  induction xs with
  | nil => simpa [tryStarG, hy] using hsucc
  | cons a xs ih =>
    have ha := hall a (List.mem_cons_self _ _)
    rw [List.cons_append, tryStarG, ha]
    simp only [if_true]
    rw [ih fun c hc => hall c (List.mem_cons_of_mem _ hc)]

/-- A lazy star fails when the continuation rejects every suffix. -/
theorem tryStarL_none (p : Char → Bool) (s : Str) (caps : Caps)
    (k : Str → Caps → Option A)
    (hfail : ∀ t, t <:+ s → k t caps = none) : tryStarL p s caps k = none := by
  induction s with
  | nil => rw [tryStarL, hfail [] List.nil_suffix]; rfl
  | cons a s ih =>
    rw [tryStarL, hfail (a :: s) (List.suffix_refl _)]
    by_cases hp : p a = true
    · simp only [orElseO, hp, if_true]
      exact ih fun t ht => hfail t (ht.trans (List.suffix_cons a s))
    · simp [orElseO, hp]

/-- A lazy star prefers the continuation on the unconsumed input. -/
theorem tryStarL_succeed (p : Char → Bool) (s : Str) (caps : Caps)
    (k : Str → Caps → Option A) (r : A) (hsucc : k s caps = some r) :
    tryStarL p s caps k = some r := by
  cases s <;> rw [tryStarL, hsucc] <;> rfl

/-- A lazy star consumes exactly `xs` when the continuation rejects every
non-empty suffix of `xs` (followed by `rest`) but accepts `rest`. -/
theorem tryStarL_skip (p : Char → Bool) (xs rest : Str) (caps : Caps)
    (k : Str → Caps → Option A) (r : A) (hall : ∀ c ∈ xs, p c = true)
    (hfail : ∀ t, t <:+ xs → t ≠ [] → k (t ++ rest) caps = none)
    (hsucc : k rest caps = some r) : tryStarL p (xs ++ rest) caps k = some r := by
  induction xs with
  | nil => rw [List.nil_append]; exact tryStarL_succeed p rest caps k r hsucc
  | cons a xs ih =>
    have hf0 := hfail (a :: xs) (List.suffix_refl _) (by simp)
    rw [List.cons_append] at hf0
    rw [List.cons_append, tryStarL, hf0]
    have ha := hall a (List.mem_cons_self _ _)
    simp only [orElseO, ha, if_true]
    exact ih (fun c hc => hall c (List.mem_cons_of_mem _ hc))
      (fun t ht hne => hfail t (ht.trans (List.suffix_cons a xs)) hne)

/-- The scan produces nothing once the skip counter reaches past the end of
the input. -/
theorem findIterGo_skip_ge (re : RE) (s : Str) (prev : Option Char)
    (skip : Nat) (h : s.length ≤ skip) : findIterGo re s prev skip = [] := by
  induction s generalizing prev skip with
  | nil => cases skip <;> rfl
  | cons a s ih =>
    cases skip with
    | zero => simp at h
    | succ n =>
      rw [findIterGo]
      exact ih (some a) n (by simpa using h)

/-- A pattern opening with a literal that contains a character absent from
the input matches nowhere. -/
theorem findIterGo_nil_of_char_missing (cs : Str) (r2 : RE) (s : Str)
    (prev : Option Char) (skip : Nat) (c : Char) (hc : c ∈ cs) (hs : c ∉ s) :
    findIterGo (.seq (.lit cs) r2) s prev skip = [] := by
  induction s generalizing prev skip with
  | nil => cases skip <;> rfl
  | cons a s ih =>
    have hs' : c ∉ s := fun hx => hs (List.mem_cons_of_mem _ hx)
    cases skip with
    | succ n => rw [findIterGo]; exact ih (some a) n hs'
    | zero =>
      rw [findIterGo]
      have hm : tryMatchAt (.seq (.lit cs) r2) (a :: s) = none := by
        unfold tryMatchAt
        rw [matchRE]
        apply matchRE_lit_not_prefix
        cases hx : cs.isPrefixOf (a :: s) with
        | false => rfl
        | true => exact absurd (mem_of_isPrefixOf _ _ hx c hc) hs
      rw [hm]
      by_cases hb : boundaryBlocked prev = true
      · simp only [hb, if_true]
        exact ih (some a) 0 hs'
      · simp only [hb, Bool.false_eq_true, if_false]
        exact ih (some a) 0 hs' 

/-- A greedy star consumes nothing when the first character is outside the
class. -/
theorem tryStarG_nostart (p : Char → Bool) (a : Char) (s : Str) (caps : Caps)
    (k : Str → Caps → Option A) (ha : p a = false) :
    tryStarG p (a :: s) caps k = k (a :: s) caps := by
  rw [tryStarG, ha]; rfl

theorem isPrefixOf_cons_ne (c a : Char) (cs s : Str) (h : c ≠ a) :
    (c :: cs).isPrefixOf (a :: s) = false := by
  simp [List.isPrefixOf, h]

/-- Neither comment pattern matches a line whose first character is neither
whitespace nor `/`. -/
theorem comment_patterns_fail (a : Char) (s : Str) (hsp : pySpace a = false)
    (hne : a ≠ '/') :
    matchTranslators (a :: s) = none ∧ matchGenericComment (a :: s) = none := by
  have hpre1 : (chars "// Translators: ").isPrefixOf (a :: s) = false := by
    rw [show chars "// Translators: " = '/' :: chars "/ Translators: " from rfl]
    exact isPrefixOf_cons_ne _ _ _ _ (fun hx => hne hx.symm)
  have hpre2 : (chars "// ").isPrefixOf (a :: s) = false := by
    rw [show chars "// " = '/' :: chars "/ " from rfl]
    exact isPrefixOf_cons_ne _ _ _ _ (fun hx => hne hx.symm)
  have hsp2 : charIn .space a = false := by simpa [charIn] using hsp
  constructor
  · simp only [matchTranslators, matchAt0, translatorsRE, seqs, matchRE]
    rw [tryStarG_nostart _ _ _ _ _ hsp2]
    simp only [hpre1, Bool.false_eq_true, if_false]
    rfl
  · simp only [matchGenericComment, matchAt0, commentRE, seqs, matchRE]
    rw [tryStarG_nostart _ _ _ _ _ hsp2]
    simp only [hpre2, Bool.false_eq_true, if_false]
    rfl

/-- On a line matched by neither comment pattern, the tracker reports the
line as not consumed, leaves collecting mode, and preserves the buffer. -/
theorem handleTranslatorsComment_nocomment (st : GState) (line : Str)
    (h1 : matchTranslators line = none) (h2 : matchGenericComment line = none) :
    handleTranslatorsComment st line =
      (false, ⟨st.messages, false, st.lastTranslatorsComment⟩) := by
  unfold handleTranslatorsComment
  rw [h1]
  by_cases hf : st.inTranslatorsComment = true
  · simp [hf, h2]
  · rw [Bool.not_eq_true] at hf
    simp only [hf, Bool.false_eq_true, if_false]
    rw [show st = ⟨st.messages, st.inTranslatorsComment, st.lastTranslatorsComment⟩
      from rfl, hf]

/-- `^\s*// Translators: (.*)$` on a marker line with newline-free text
captures exactly the text. -/
theorem matchTranslators_marker (t : Str) (h : ∀ c ∈ t, c ≠ '\n') :
    matchTranslators (chars "// Translators: " ++ t) = some t := by
  have hpre : (chars "// Translators: ").isPrefixOf
      (chars "// Translators: " ++ t) = true := by
    rw [List.isPrefixOf_iff_prefix]; exact List.prefix_append _ _
  have hstep : matchAt0 translatorsRE (chars "// Translators: " ++ t)
      = some [(gText, t)] := by
    simp only [matchAt0, translatorsRE, seqs, matchRE]
    rw [show chars "// Translators: " ++ t
      = '/' :: (chars "/ Translators: " ++ t) from rfl]
    rw [tryStarG_nostart _ _ _ _ _ (by decide)]
    rw [show ('/' :: (chars "/ Translators: " ++ t))
      = chars "// Translators: " ++ t from rfl]
    rw [hpre]
    simp only [if_true, List.drop_left]
    apply tryStarG_all
    · intro c hc
      simpa [charIn] using h c hc
    · simp [List.take_length]
  unfold matchTranslators
  rw [hstep]
  simp [getCap, gText]

/-! ### Step equations for the scanning loops -/

theorem addCppGo_consumed (line : Str) (rest : List Str) (st st1 : GState)
    (h : handleTranslatorsComment st line = (true, st1)) :
    addCppGo (line :: rest) st none = addCppGo rest st1 none := by
  rw [addCppGo, h]

theorem addCppGo_fresh_complete (line : Str) (rest : List Str)
    (st st1 st2 : GState)
    (h : handleTranslatorsComment st line = (false, st1))
    (hc : (findMatches line).all completeData = true)
    (hp : processMatches st1 (findMatches line) = (st2, none)) :
    addCppGo (line :: rest) st none = addCppGo rest st2 none := by
  rw [addCppGo, h]
  simp only [hc, if_true, hp]

theorem addCppGo_fresh_incomplete (line : Str) (rest : List Str)
    (st st1 : GState)
    (h : handleTranslatorsComment st line = (false, st1))
    (hc : (findMatches line).all completeData = false) :
    addCppGo (line :: rest) st none = addCppGo rest st1 (some line) := by
  rw [addCppGo, h]
  simp only [hc, Bool.false_eq_true, if_false]

theorem addCppGo_pending_complete (line : Str) (rest : List Str)
    (st st2 : GState) (buf : Str)
    (hc : (findMatches (buf ++ '\n' :: line)).all completeData = true)
    (hp : processMatches st (findMatches (buf ++ '\n' :: line)) = (st2, none)) :
    addCppGo (line :: rest) st (some buf) = addCppGo rest st2 none := by
  rw [addCppGo]
  simp only [hc, if_true, hp]

theorem addCppGo_pending_incomplete (line : Str) (rest : List Str)
    (st : GState) (buf : Str)
    (hc : (findMatches (buf ++ '\n' :: line)).all completeData = false) :
    addCppGo (line :: rest) st (some buf)
      = addCppGo rest st (some (buf ++ '\n' :: line)) := by
  rw [addCppGo]
  simp only [hc, Bool.false_eq_true, if_false]

theorem handleTranslatorsComment_marker (st : GState) (line t : Str)
    (h : matchTranslators line = some t) :
    handleTranslatorsComment st line =
      (true, ⟨st.messages, true, st.lastTranslatorsComment ++ [t]⟩) := by
  unfold handleTranslatorsComment
  rw [h]

/-- **C4** (counterexample to the claim as stated): with two translator
comment runs separated by ordinary code and no insertion in between, the
first run's line `A` is *not* overwritten by the second run's first line —
the entry inserted afterwards carries both `A` and `B`. -/
theorem pending_comments_accumulate_cex :
    (addCppLoop [chars "// Translators: A", chars "int x;",
        chars "// Translators: B", chars "translate(\"m\")"]
      cleanState).1.messages.map (fun e => e.2.comments)
      = [[chars "A", chars "B"]] := by
  decide

/-- **C4** (amended): the pending comment buffer is never overwritten or
discarded when a comment run ends without an insertion; a new run's lines
are appended to whatever the buffer already holds (even across an
intervening non-comment, non-message line), and the whole accumulated
buffer is attached to the next inserted message. -/
theorem pending_comments_accumulate (phi : Bool) (B : List Str) (t1 t2 : Str)
    (h1 : ∀ c ∈ t1, c ≠ '\n') (h2 : ∀ c ∈ t2, c ≠ '\n') :
    addCppLoop [chars "// Translators: " ++ t1, chars "int x;",
        chars "// Translators: " ++ t2, chars "translate(\"m\")"]
      ⟨[], phi, B⟩ =
    (⟨[(((none : Option Str), chars "m"),
        ⟨some (chars "m"), none, false, none, none, some [')'],
          B ++ [t1, t2]⟩)], false, []⟩, none) := by
  have hm1 := matchTranslators_marker t1 h1
  have hm2 := matchTranslators_marker t2 h2
  have hx1 : matchTranslators (chars "int x;") = none := by decide
  have hx2 : matchGenericComment (chars "int x;") = none := by decide
  have hx3 : matchTranslators (chars "translate(\"m\")") = none := by decide
  have hx4 : matchGenericComment (chars "translate(\"m\")") = none := by decide
  have hfm2 : findMatches (chars "int x;") = [] := by decide
  have hfm4 : findMatches (chars "translate(\"m\")")
      = [⟨some (chars "m"), none, false, none, none, some [')'], []⟩] := by
    decide
  have hfalsy : falsyOptStr (some (chars "m")) = false := by decide
  have hp4 : processMatches ⟨[], false, (B ++ [t1]) ++ [t2]⟩
      (findMatches (chars "translate(\"m\")")) =
      (⟨[(((none : Option Str), chars "m"),
        ⟨some (chars "m"), none, false, none, none, some [')'],
          [] ++ ((B ++ [t1]) ++ [t2])⟩)], false, []⟩, none) := by
    rw [hfm4, processMatches, hfalsy]
    simp only [Bool.false_eq_true, if_false]
    rw [addMessage_ok _ _ _ _ hfalsy]
    rfl
  rw [addCppLoop,
    addCppGo_consumed _ _ _ _ (handleTranslatorsComment_marker _ _ _ hm1)]
  dsimp only
  rw [addCppGo_fresh_complete _ _ _ _ _
      (handleTranslatorsComment_nocomment _ _ hx1 hx2)
      (by rw [hfm2]; rfl) (by rw [hfm2]; rfl)]
  try dsimp only
  rw [addCppGo_consumed _ _ _ _ (handleTranslatorsComment_marker _ _ _ hm2)]
  try dsimp only
  rw [addCppGo_fresh_complete _ _ _ _ _
      (handleTranslatorsComment_nocomment _ _ hx3 hx4)
      (by rw [hfm4]; decide) hp4]
  rw [addCppGo]
  simp

theorem take_sub_len (xs rest : Str) :
    (xs ++ rest).take ((xs ++ rest).length - rest.length) = xs := by
  rw [List.length_append, Nat.add_sub_cancel, List.take_left]

/-- `RE_RC_TRANSLATE.match` on `CAPTION "<c>"` for quote- and newline-free
`c` extracts the command and the msgid. -/
theorem matchRcLine_caption (c : Str) (hq : ∀ x ∈ c, x ≠ '"')
    (hn : ∀ x ∈ c, x ≠ '\n') :
    matchRcLine (chars "CAPTION \"" ++ c ++ ['"'])
      = some (chars "CAPTION", c) := by
  have h1 : chars "CAPTION \"" ++ c ++ ['"']
      = 'C' :: ((chars "APTION \"" ++ c) ++ ['"']) := rfl
  have h2 : chars "CAPTION \"" ++ c ++ ['"']
      = chars "CAPTION" ++ ((chars " \"" ++ c) ++ ['"']) := by
    simp [chars]
  have hpreC : (chars "CAPTION").isPrefixOf
      (chars "CAPTION" ++ ((chars " \"" ++ c) ++ ['"'])) = true := by
    rw [List.isPrefixOf_iff_prefix]; exact List.prefix_append _ _
  simp only [matchRcLine, matchAt0, rcRE, seqs, matchRE, cmdAlt]
  rw [h1, tryStarG_nostart (charIn .space) 'C'
    ((chars "APTION \"" ++ c) ++ ['"']) [] _ (by decide)]
  rw [← h1, h2, hpreC]
  simp only [if_true, List.drop_left]
  rw [take_sub_len]
  rw [show (chars " \"" ++ c) ++ ['"'] = ' ' :: (('"' :: c) ++ ['"']) from rfl]
  simp only [show charIn .space ' ' = true from rfl, if_true]
  rw [show ('"' :: c) ++ ['"'] = '"' :: (c ++ ['"']) from rfl]
  rw [tryStarG_nostart (charIn .space) '"' (c ++ ['"'])
    [(gCommand, chars "CAPTION")] _ (by decide)]
  have hq1 : (['"'] : Str).isPrefixOf ('"' :: (c ++ ['"'])) = true := by
    simp [List.isPrefixOf]
  rw [hq1]
  simp only [if_true]
  have hdrop1 : List.drop (['"'] : Str).length ('"' :: (c ++ ['"']))
      = c ++ ['"'] := rfl
  rw [hdrop1]
  have hstar : tryStarL (charIn CClass.dot) (c ++ ['"'])
      [(gCommand, chars "CAPTION")]
      (fun s1 caps1 =>
        if List.isPrefixOf ['"'] s1 = true then
          some ((gMsgid,
            List.take ((c ++ ['"']).length - s1.length) (c ++ ['"'])) :: caps1)
        else none)
      = some [(gMsgid, c), (gCommand, chars "CAPTION")] := by
    apply tryStarL_skip
    · intro x hx
      simpa [charIn] using hn x hx
    · intro t ht hne
      rcases t with _ | ⟨x, t'⟩
      · exact absurd rfl hne
      · have hx : x ∈ c := ht.subset (List.mem_cons_self _ _)
        rw [show (x :: t') ++ ['"'] = x :: (t' ++ ['"']) from rfl]
        rw [isPrefixOf_cons_ne _ _ _ _ (fun he => hq x hx he.symm)]
        rfl
    · rw [show List.isPrefixOf ['"'] (['"'] : Str) = true from rfl]
      simp only [if_true]
      rw [take_sub_len]
  rw [hstar]
  simp [getCap, gMsgid, gCommand]

theorem addRcLoop_step (ctx : Option Str) (line : Str) (rest : List Str)
    (st st1 : GState) (cmd msgid : Str)
    (h : handleTranslatorsComment st line = (false, st1))
    (hm : matchRcLine line = some (cmd, msgid)) :
    addRcLoop ctx (line :: rest) st =
      (if falsyOptStr (if cmd = chars "CAPTION" then some msgid else ctx) then
        (st1, some .noCaption)
      else if msgid.isEmpty then
        addRcLoop (if cmd = chars "CAPTION" then some msgid else ctx) rest st1
      else
        match addMessage st1 ⟨some msgid,
          (if cmd = chars "CAPTION" then some msgid else ctx), false, none,
          some cmd, none, []⟩ with
        | .ok st2 =>
          addRcLoop (if cmd = chars "CAPTION" then some msgid else ctx) rest st2
        | .error e => (st1, some e)) := by
  rw [addRcLoop, h]
  dsimp only
  rw [hm]

/-- **C3** (counterexample to the claim as stated): a lone `CAPTION` line
inserts the caption itself into the Catalog Store (keyed by itself as
context), because the `CAPTION` branch of `addRc` sets the context and then
falls through to `addMessage` like every other recognized command. -/
theorem addRc_caption_inserts_cex :
    (addRcLoop none [chars "CAPTION \"Settings\""] cleanState).1.messages =
      [((some (chars "Settings"), chars "Settings"),
        ⟨some (chars "Settings"), some (chars "Settings"), false, none,
          some (chars "CAPTION"), none, []⟩)] := by
  decide

/-- **C3** (amended): a `CAPTION` line updates the current context to its
msgid *and* also inserts the caption itself as a catalog entry with key
`(caption, caption)`; all six recognized commands reach the insertion
path. -/
theorem addRc_caption_sets_context_and_inserts (phi : Bool) (B : List Str)
    (c : Str) (hc : c ≠ []) (hq : ∀ x ∈ c, x ≠ '"')
    (hn : ∀ x ∈ c, x ≠ '\n') :
    addRcLoop none [chars "CAPTION \"" ++ c ++ ['"']] ⟨[], phi, B⟩ =
      (⟨[((some c, c),
        ⟨some c, some c, false, none, some (chars "CAPTION"), none,
          [] ++ B⟩)], false, []⟩, none) := by
  have h1 : chars "CAPTION \"" ++ c ++ ['"']
      = 'C' :: ((chars "APTION \"" ++ c) ++ ['"']) := rfl
  have hcmt := comment_patterns_fail 'C' ((chars "APTION \"" ++ c) ++ ['"'])
    (by decide) (by decide)
  have htr : handleTranslatorsComment ⟨[], phi, B⟩
      (chars "CAPTION \"" ++ c ++ ['"']) = (false, ⟨[], false, B⟩) := by
    rw [h1]
    exact handleTranslatorsComment_nocomment _ _ hcmt.1 hcmt.2
  have hfal : falsyOptStr (some c) = false := by
    cases c with
    | nil => exact absurd rfl hc
    | cons x cs => rfl
  have hemp : c.isEmpty = false := by
    cases c with
    | nil => exact absurd rfl hc
    | cons x cs => rfl
  have hifc : (if chars "CAPTION" = chars "CAPTION" then some c
      else (none : Option Str)) = some c := if_pos rfl
  rw [addRcLoop_step none _ _ _ _ _ _ htr (matchRcLine_caption c hq hn),
    hifc, hfal, hemp]
  simp only [Bool.false_eq_true, if_false]
  rw [addMessage_ok _ _ _ _ hfal]
  have hk : hasKey ([] : List (MsgKey × MsgData))
      (keyOf ⟨some c, some c, false, none, some (chars "CAPTION"), none, []⟩)
      = false := rfl
  rw [hk]
  simp only [Bool.false_eq_true, if_false, List.nil_append]
  simp [extendComments, extendData, keyOf, addRcLoop]

theorem addRc_caption_sets_context_and_inserts_wit :
    (chars "Settings" ≠ []) ∧
    (∀ x ∈ chars "Settings", x ≠ '"') ∧ (∀ x ∈ chars "Settings", x ≠ '\n') ∧
    addRcLoop none [chars "CAPTION \"" ++ chars "Settings" ++ ['"']]
        ⟨[], false, []⟩ =
      (⟨[((some (chars "Settings"), chars "Settings"),
        ⟨some (chars "Settings"), some (chars "Settings"), false, none,
          some (chars "CAPTION"), none, [] ++ ([] : List Str)⟩)], false, []⟩,
        none) :=
  ⟨by decide, by decide, by decide,
    addRc_caption_sets_context_and_inserts false [] (chars "Settings")
      (by decide) (by decide) (by decide)⟩

theorem pending_comments_accumulate_wit :
    (∀ c ∈ chars "Explains A", c ≠ '\n') ∧
    (∀ c ∈ chars "Explains B", c ≠ '\n') ∧
    addCppLoop [chars "// Translators: " ++ chars "Explains A",
        chars "int x;",
        chars "// Translators: " ++ chars "Explains B",
        chars "translate(\"m\")"]
      ⟨[], false, []⟩ =
    (⟨[(((none : Option Str), chars "m"),
        ⟨some (chars "m"), none, false, none, none, some [')'],
          [] ++ [chars "Explains A", chars "Explains B"]⟩)], false, []⟩,
      none) :=
  ⟨by decide, by decide,
    pending_comments_accumulate false [] (chars "Explains A")
      (chars "Explains B") (by decide) (by decide)⟩

/-- A match at position 0 that consumes the whole input is the only match
the scan yields. -/
theorem findIterGo_single (re : RE) (s : Str) (caps : Caps)
    (hne : s ≠ []) (h : tryMatchAt re s = some (caps, [])) :
    findIterGo re s none 0 = [caps] := by
  cases s with
  | nil => exact absurd rfl hne
  | cons b tail =>
    rw [findIterGo]
    simp only [show boundaryBlocked none = false from rfl, Bool.false_eq_true,
      if_false]
    rw [h]
    dsimp only
    rw [show (b :: tail).length - List.length ([] : Str) - 1 = tail.length
      from by simp]
    rw [findIterGo_skip_ge re tail (some b) tail.length (Nat.le_refl _)]

/-- Matching the simple pattern against the accumulated buffer
`translate(` + newline + `// Translators: <t>`: the argument alternation
falls into its `[^)]*` branch and swallows the marker line, no closing
parenthesis is found, and no group is captured (an incomplete call). -/
theorem tryMatchAt_open_marker (t : Str) (ht : ∀ c ∈ t, c ≠ ')') :
    tryMatchAt simpleRE
      (chars "translate(" ++ ('\n' :: (chars "// Translators: " ++ t)))
      = some ([], []) := by
  simp only [tryMatchAt, simpleRE, seqs, matchRE, argAlt]
  rw [show chars "translate(" ++ ('\n' :: (chars "// Translators: " ++ t))
    = chars "translate" ++ ('(' :: ('\n' :: (chars "// Translators: " ++ t)))
    from rfl]
  have hpre1 : (chars "translate").isPrefixOf (chars "translate"
      ++ ('(' :: ('\n' :: (chars "// Translators: " ++ t)))) = true := by
    rw [List.isPrefixOf_iff_prefix]; exact List.prefix_append _ _
  rw [hpre1]
  simp only [if_true, List.drop_left]
  rw [show ((['('] : Str)).isPrefixOf
    ('(' :: ('\n' :: (chars "// Translators: " ++ t))) = true from by
      simp [List.isPrefixOf]]
  simp only [if_true]
  rw [show List.drop (['('] : Str).length
    ('(' :: ('\n' :: (chars "// Translators: " ++ t)))
    = '\n' :: (chars "// Translators: " ++ t) from rfl]
  rw [tryStarG]
  simp only [show charIn .space '\n' = true from rfl, if_true]
  rw [show chars "// Translators: " ++ t
    = '/' :: (chars "/ Translators: " ++ t) from rfl]
  rw [tryStarG_nostart (charIn .space) '/' (chars "/ Translators: " ++ t)
    [] _ (by decide)]
  rw [isPrefixOf_cons_ne '"' '/' [] (chars "/ Translators: " ++ t) (by decide)]
  simp only [Bool.false_eq_true, if_false]
  rw [tryStarG_all (charIn .notRParen) ('/' :: (chars "/ Translators: " ++ t))
    [] _ ((([] : Caps), ([] : Str))) ?hall ?hsucc]
  case hall =>
    intro c hc
    rcases List.mem_cons.mp hc with h | h
    · subst h; decide
    · rcases List.mem_append.mp h with h | h
      · revert h
        have : ∀ c ∈ chars "/ Translators: ", charIn CClass.notRParen c = true := by
          decide
        exact this c
      · simpa [charIn] using ht c h
  case hsucc => rfl

/-- Matching the simple pattern against the fully accumulated buffer
`translate(` + newline + marker line + newline + `)`: the `[^)]*` branch
swallows everything up to the closing parenthesis, which the `end` group
captures; the msgid group never participates. -/
theorem tryMatchAt_close_marker (t : Str) (ht : ∀ c ∈ t, c ≠ ')') :
    tryMatchAt simpleRE
      (chars "translate(" ++ ('\n' ::
        ((chars "// Translators: " ++ t) ++ ['\n', ')'])))
      = some ([(gEnd, [')'])], []) := by
  simp only [tryMatchAt, simpleRE, seqs, matchRE, argAlt]
  rw [show chars "translate(" ++ ('\n' ::
      ((chars "// Translators: " ++ t) ++ ['\n', ')']))
    = chars "translate" ++ ('(' :: ('\n' ::
      ((chars "// Translators: " ++ t) ++ ['\n', ')']))) from rfl]
  have hpre1 : (chars "translate").isPrefixOf (chars "translate"
      ++ ('(' :: ('\n' :: ((chars "// Translators: " ++ t) ++ ['\n', ')']))))
      = true := by
    rw [List.isPrefixOf_iff_prefix]; exact List.prefix_append _ _
  rw [hpre1]
  simp only [if_true, List.drop_left]
  rw [show ((['('] : Str)).isPrefixOf ('(' :: ('\n' ::
      ((chars "// Translators: " ++ t) ++ ['\n', ')']))) = true from by
    simp [List.isPrefixOf]]
  simp only [if_true]
  rw [show List.drop (['('] : Str).length ('(' :: ('\n' ::
      ((chars "// Translators: " ++ t) ++ ['\n', ')'])))
    = '\n' :: ((chars "// Translators: " ++ t) ++ ['\n', ')']) from rfl]
  rw [tryStarG]
  simp only [show charIn .space '\n' = true from rfl, if_true]
  rw [show (chars "// Translators: " ++ t) ++ ['\n', ')']
    = '/' :: ((chars "/ Translators: " ++ t) ++ ['\n', ')']) from rfl]
  rw [tryStarG_nostart (charIn .space) '/'
    ((chars "/ Translators: " ++ t) ++ ['\n', ')']) [] _ (by decide)]
  rw [isPrefixOf_cons_ne '"' '/' []
    ((chars "/ Translators: " ++ t) ++ ['\n', ')']) (by decide)]
  simp only [Bool.false_eq_true, if_false]
  rw [show '/' :: ((chars "/ Translators: " ++ t) ++ ['\n', ')'])
    = ('/' :: ((chars "/ Translators: " ++ t) ++ ['\n'])) ++ (')' :: []) from by
    simp]
  rw [tryStarG_stop (charIn .notRParen)
    ('/' :: ((chars "/ Translators: " ++ t) ++ ['\n'])) ')' [] [] _
    (([(gEnd, [')'])], ([] : Str))) ?hall ?hy ?hsucc]
  case hall =>
    intro c hc
    rcases List.mem_cons.mp hc with h | h
    · subst h; decide
    · rcases List.mem_append.mp h with h | h
      · rcases List.mem_append.mp h with h | h
        · revert h
          have : ∀ c ∈ chars "/ Translators: ",
              charIn CClass.notRParen c = true := by decide
          exact this c
        · simpa [charIn] using ht c h
      · rcases List.mem_cons.mp h with h | h
        · subst h; decide
        · simp at h
  case hy => decide
  case hsucc => rfl

/-- **C10**: during multi-line accumulation, continuation lines are fetched
with `next(input)` and appended to the call buffer without being offered to
the Comment Tracker: a `// Translators:` line between the opening of an
unterminated call and its closing parenthesis is never added to the pending
comment buffer (which stays untouched, as does the store), and its text is
scanned as ordinary call content; the same line offered to the tracker
outside a call would be consumed into the buffer. -/
theorem continuation_lines_bypass_comment_tracker
    (M : List (MsgKey × MsgData)) (phi : Bool) (B : List Str) (t : Str)
    (ht : ∀ c ∈ t, c ≠ ')' ∧ c ≠ '\n' ∧ c ≠ '_') :
    addCppLoop [chars "translate(", chars "// Translators: " ++ t, chars ")"]
        ⟨M, phi, B⟩ = (⟨M, false, B⟩, none) ∧
    handleTranslatorsComment ⟨M, false, B⟩ (chars "// Translators: " ++ t)
      = (true, ⟨M, true, B ++ [t]⟩) := by
  have ht1 : ∀ c ∈ t, c ≠ ')' := fun c hc => (ht c hc).1
  have htn : ∀ c ∈ t, c ≠ '\n' := fun c hc => (ht c hc).2.1
  have htu : ∀ c ∈ t, c ≠ '_' := fun c hc => (ht c hc).2.2
  constructor
  · have hx1 : matchTranslators (chars "translate(") = none := by decide
    have hx2 : matchGenericComment (chars "translate(") = none := by decide
    have hc1 : (findMatches (chars "translate(")).all completeData = false := by
      decide
    rw [addCppLoop, addCppGo_fresh_incomplete _ _ _ _
      (handleTranslatorsComment_nocomment _ _ hx1 hx2) hc1]
    have hb2 : findIterGo simpleRE
        (chars "translate(" ++ '\n' :: (chars "// Translators: " ++ t)) none 0
        = [[]] :=
      findIterGo_single _ _ _ (by simp [chars]) (tryMatchAt_open_marker t ht1)
    have hc2 : (findMatches (chars "translate(" ++ '\n' ::
        (chars "// Translators: " ++ t))).all completeData = false := by
      rw [findMatches, hb2]
      simp [completeData, mkSimpleData, falsyOptStr, getCap]
    rw [addCppGo_pending_incomplete _ _ _ _ hc2]
    have hassoc : (chars "translate(" ++ '\n' ::
        (chars "// Translators: " ++ t)) ++ '\n' :: chars ")"
        = chars "translate(" ++ ('\n' ::
          ((chars "// Translators: " ++ t) ++ ['\n', ')'])) := by
      rw [show chars ")" = [')'] from rfl]
      simp
    have hmem : '_' ∉ chars "translate(" ++ ('\n' ::
        ((chars "// Translators: " ++ t) ++ ['\n', ')'])) := by
      intro hx
      rcases List.mem_append.mp hx with h | h
      · revert h; decide
      · rcases List.mem_cons.mp h with h | h
        · exact absurd h (by decide)
        · rcases List.mem_append.mp h with h | h
          · rcases List.mem_append.mp h with h | h
            · revert h
              have : '_' ∉ chars "// Translators: " := by decide
              exact fun hx2 => this hx2
            · exact htu _ h rfl
          · revert h; decide
    have hctxt : findIterGo ctxtRE (chars "translate(" ++ ('\n' ::
        ((chars "// Translators: " ++ t) ++ ['\n', ')']))) none 0 = [] :=
      findIterGo_nil_of_char_missing _ _ _ _ _ '_' (by decide) hmem
    have hplural : findIterGo pluralRE (chars "translate(" ++ ('\n' ::
        ((chars "// Translators: " ++ t) ++ ['\n', ')']))) none 0 = [] :=
      findIterGo_nil_of_char_missing _ _ _ _ _ '_' (by decide) hmem
    have hb3 : findIterGo simpleRE (chars "translate(" ++ ('\n' ::
        ((chars "// Translators: " ++ t) ++ ['\n', ')']))) none 0
        = [[(gEnd, [')'])]] :=
      findIterGo_single _ _ _ (by simp [chars])
        (tryMatchAt_close_marker t ht1)
    have hfm3 : findMatches ((chars "translate(" ++ '\n' ::
        (chars "// Translators: " ++ t)) ++ '\n' :: chars ")")
        = [⟨none, none, false, none, none, some [')'], []⟩] := by
      rw [hassoc, findMatches, hb3, hctxt, hplural]
      simp [mkSimpleData, getCap, gMsgid, gEnd]
    rw [addCppGo_pending_complete _ _ _ _ _ (by rw [hfm3]; decide)
      (by rw [hfm3]; rfl)]
    rfl
  · exact handleTranslatorsComment_marker _ _ _ (matchTranslators_marker t htn)

theorem continuation_lines_bypass_comment_tracker_wit :
    (∀ c ∈ chars "Do not change X", c ≠ ')' ∧ c ≠ '\n' ∧ c ≠ '_') ∧
    (addCppLoop [chars "translate(",
        chars "// Translators: " ++ chars "Do not change X", chars ")"]
        ⟨[], false, []⟩ = (⟨[], false, []⟩, none) ∧
      handleTranslatorsComment ⟨[], false, []⟩
          (chars "// Translators: " ++ chars "Do not change X")
        = (true, ⟨[], true, [] ++ [chars "Do not change X"]⟩)) :=
  ⟨by decide, continuation_lines_bypass_comment_tracker [] false []
    (chars "Do not change X") (by decide)⟩

theorem addCppGo_fresh_complete_gen (line : Str) (rest : List Str)
    (st st1 : GState)
    (h : handleTranslatorsComment st line = (false, st1))
    (hc : (findMatches line).all completeData = true) :
    addCppGo (line :: rest) st none =
      (match processMatches st1 (findMatches line) with
       | (st2, some e) => (st2, some e)
       | (st2, none) => addCppGo rest st2 none) := by
  rw [addCppGo, h]
  simp only [hc, if_true]

theorem addCppGo_pending_complete_gen (line : Str) (rest : List Str)
    (st : GState) (buf : Str)
    (hc : (findMatches (buf ++ '\n' :: line)).all completeData = true) :
    addCppGo (line :: rest) st (some buf) =
      (match processMatches st (findMatches (buf ++ '\n' :: line)) with
       | (st2, some e) => (st2, some e)
       | (st2, none) => addCppGo rest st2 none) := by
  rw [addCppGo]
  simp only [hc, if_true]

/-- The simple pattern on `translate("<s>` (open literal, no closing
parenthesis yet): the quoted branch fails for lack of a closing quote, the
junk branch swallows everything, and the call is incomplete. -/
theorem tryMatchAt_line_open (s : Str) (hq : ∀ c ∈ s, c ≠ '"')
    (hn : ∀ c ∈ s, c ≠ '\n') :
    tryMatchAt simpleRE (chars "translate(\"" ++ (s ++ ['"']))
      = some ([(gMsgid, s)], []) := by
  simp only [tryMatchAt, simpleRE, seqs, matchRE, argAlt]
  rw [show chars "translate(\"" ++ (s ++ ['"'])
    = chars "translate" ++ ('(' :: ('"' :: (s ++ ['"']))) from rfl]
  have hpre1 : (chars "translate").isPrefixOf
      (chars "translate" ++ ('(' :: ('"' :: (s ++ ['"'])))) = true := by
    rw [List.isPrefixOf_iff_prefix]; exact List.prefix_append _ _
  rw [hpre1]
  simp only [if_true, List.drop_left]
  rw [show ((['('] : Str)).isPrefixOf ('(' :: ('"' :: (s ++ ['"']))) = true
    from by simp [List.isPrefixOf]]
  simp only [if_true]
  rw [show List.drop (['('] : Str).length ('(' :: ('"' :: (s ++ ['"'])))
    = '"' :: (s ++ ['"']) from rfl]
  rw [tryStarG_nostart (charIn .space) '"' (s ++ ['"']) [] _ (by decide)]
  rw [show ((['"'] : Str)).isPrefixOf ('"' :: (s ++ ['"'])) = true
    from by simp [List.isPrefixOf]]
  simp only [if_true]
  rw [show List.drop (['"'] : Str).length ('"' :: (s ++ ['"'])) = s ++ ['"']
    from rfl]
  rw [tryStarL_skip (charIn .dot) s ['"'] [] _ (([(gMsgid, s)], ([] : Str)))
    ?hall ?hfail ?hsucc]
  case hall =>
    intro c hc
    simpa [charIn] using hn c hc
  case hfail =>
    intro t ht hne
    rcases t with _ | ⟨x, t'⟩
    · exact absurd rfl hne
    · have hx : x ∈ s := ht.subset (List.mem_cons_self _ _)
      rw [show (x :: t') ++ ['"'] = x :: (t' ++ ['"']) from rfl]
      rw [isPrefixOf_cons_ne _ _ _ _ (fun he => hq x hx he.symm)]
      rfl
  case hsucc =>
    rw [show ((['"'] : Str)).isPrefixOf ['"'] = true from rfl]
    simp only [if_true]
    rw [take_sub_len]
    rfl

/-- The simple pattern on the one-line call `translate("<s>")`. -/
theorem tryMatchAt_one_line (s : Str) (hq : ∀ c ∈ s, c ≠ '"')
    (hn : ∀ c ∈ s, c ≠ '\n') :
    tryMatchAt simpleRE (chars "translate(\"" ++ (s ++ ['"', ')']))
      = some ([(gEnd, [')']), (gMsgid, s)], []) := by
  simp only [tryMatchAt, simpleRE, seqs, matchRE, argAlt]
  rw [show chars "translate(\"" ++ (s ++ ['"', ')'])
    = chars "translate" ++ ('(' :: ('"' :: (s ++ ['"', ')']))) from rfl]
  have hpre1 : (chars "translate").isPrefixOf
      (chars "translate" ++ ('(' :: ('"' :: (s ++ ['"', ')'])))) = true := by
    rw [List.isPrefixOf_iff_prefix]; exact List.prefix_append _ _
  rw [hpre1]
  simp only [if_true, List.drop_left]
  rw [show ((['('] : Str)).isPrefixOf ('(' :: ('"' :: (s ++ ['"', ')'])))
    = true from by simp [List.isPrefixOf]]
  simp only [if_true]
  rw [show List.drop (['('] : Str).length ('(' :: ('"' :: (s ++ ['"', ')'])))
    = '"' :: (s ++ ['"', ')']) from rfl]
  rw [tryStarG_nostart (charIn .space) '"' (s ++ ['"', ')']) [] _ (by decide)]
  rw [show ((['"'] : Str)).isPrefixOf ('"' :: (s ++ ['"', ')'])) = true
    from by simp [List.isPrefixOf]]
  simp only [if_true]
  rw [show List.drop (['"'] : Str).length ('"' :: (s ++ ['"', ')']))
    = s ++ ['"', ')'] from rfl]
  rw [tryStarL_skip (charIn .dot) s ['"', ')'] [] _
    (([(gEnd, [')']), (gMsgid, s)], ([] : Str))) ?hall ?hfail ?hsucc]
  case hall =>
    intro c hc
    simpa [charIn] using hn c hc
  case hfail =>
    intro t ht hne
    rcases t with _ | ⟨x, t'⟩
    · exact absurd rfl hne
    · have hx : x ∈ s := ht.subset (List.mem_cons_self _ _)
      rw [show (x :: t') ++ ['"', ')'] = x :: (t' ++ ['"', ')']) from rfl]
      rw [isPrefixOf_cons_ne _ _ _ _ (fun he => hq x hx he.symm)]
      rfl
  case hsucc =>
    rw [show ((['"'] : Str)).isPrefixOf ['"', ')'] = true from rfl]
    simp only [if_true]
    rw [take_sub_len]
    rfl

/-- The simple pattern on the accumulated two-line call
`translate("<s>"` + newline + `)`. -/
theorem tryMatchAt_two_line (s : Str) (hq : ∀ c ∈ s, c ≠ '"')
    (hn : ∀ c ∈ s, c ≠ '\n') :
    tryMatchAt simpleRE (chars "translate(\"" ++ (s ++ ['"', '\n', ')']))
      = some ([(gEnd, [')']), (gMsgid, s)], []) := by
  simp only [tryMatchAt, simpleRE, seqs, matchRE, argAlt]
  rw [show chars "translate(\"" ++ (s ++ ['"', '\n', ')'])
    = chars "translate" ++ ('(' :: ('"' :: (s ++ ['"', '\n', ')']))) from rfl]
  have hpre1 : (chars "translate").isPrefixOf
      (chars "translate" ++ ('(' :: ('"' :: (s ++ ['"', '\n', ')'])))) = true := by
    rw [List.isPrefixOf_iff_prefix]; exact List.prefix_append _ _
  rw [hpre1]
  simp only [if_true, List.drop_left]
  rw [show ((['('] : Str)).isPrefixOf
    ('(' :: ('"' :: (s ++ ['"', '\n', ')']))) = true from by
      simp [List.isPrefixOf]]
  simp only [if_true]
  rw [show List.drop (['('] : Str).length
    ('(' :: ('"' :: (s ++ ['"', '\n', ')'])))
    = '"' :: (s ++ ['"', '\n', ')']) from rfl]
  rw [tryStarG_nostart (charIn .space) '"' (s ++ ['"', '\n', ')']) [] _
    (by decide)]
  rw [show ((['"'] : Str)).isPrefixOf ('"' :: (s ++ ['"', '\n', ')'])) = true
    from by simp [List.isPrefixOf]]
  simp only [if_true]
  rw [show List.drop (['"'] : Str).length ('"' :: (s ++ ['"', '\n', ')']))
    = s ++ ['"', '\n', ')'] from rfl]
  rw [tryStarL_skip (charIn .dot) s ['"', '\n', ')'] [] _
    (([(gEnd, [')']), (gMsgid, s)], ([] : Str))) ?hall ?hfail ?hsucc]
  case hall =>
    intro c hc
    simpa [charIn] using hn c hc
  case hfail =>
    intro t ht hne
    rcases t with _ | ⟨x, t'⟩
    · exact absurd rfl hne
    · have hx : x ∈ s := ht.subset (List.mem_cons_self _ _)
      rw [show (x :: t') ++ ['"', '\n', ')'] = x :: (t' ++ ['"', '\n', ')'])
        from rfl]
      rw [isPrefixOf_cons_ne _ _ _ _ (fun he => hq x hx he.symm)]
      rfl
  case hsucc =>
    rw [show ((['"'] : Str)).isPrefixOf ['"', '\n', ')'] = true from rfl]
    simp only [if_true]
    rw [take_sub_len]
    rfl

/-- **C8** (counterexample to the claim as stated): a call whose *string
literal* spans the line break (closing delimiter on the later line) yields
no entry, while the identical call written on one line yields one: `.*?`
cannot cross the newline, so the quoted branch fails and the junk branch
leaves the msgid group unset. -/
theorem multiline_split_literal_cex :
    (addCppLoop [chars "translate(\"ab", chars "cd\")"]
      cleanState).1.messages = [] ∧
    (addCppLoop [chars "translate(\"abcd\")"] cleanState).1.messages.map
      Prod.fst = [(none, chars "abcd")] := by
  constructor <;> decide

/-- **C8** (amended): the accumulate-and-retry algorithm extracts a call
whose closing parenthesis is on a later line than its opening identically
to the same call written on one line, *provided the line break does not
fall inside a string literal*: for every quote-, newline- and
underscore-free literal `s` and every inherited state, scanning
`translate("<s>"` followed by `)` ends in exactly the state produced by
scanning `translate("<s>")`. -/
theorem multiline_call_same_as_single_line (M : List (MsgKey × MsgData))
    (phi : Bool) (B : List Str) (s : Str)
    (hs : ∀ c ∈ s, c ≠ '"' ∧ c ≠ '\n' ∧ c ≠ '_') :
    addCppLoop [chars "translate(\"" ++ (s ++ ['"']), chars ")"] ⟨M, phi, B⟩
      = addCppLoop [chars "translate(\"" ++ (s ++ ['"', ')'])] ⟨M, phi, B⟩ := by
  have hq : ∀ c ∈ s, c ≠ '"' := fun c hc => (hs c hc).1
  have hn : ∀ c ∈ s, c ≠ '\n' := fun c hc => (hs c hc).2.1
  have hu : ∀ c ∈ s, c ≠ '_' := fun c hc => (hs c hc).2.2
  have hmem2 : '_' ∉ chars "translate(\"" ++ (s ++ ['"', '\n', ')']):= by
    intro hx
    rcases List.mem_append.mp hx with h | h
    · revert h; decide
    · rcases List.mem_append.mp h with h | h
      · exact hu _ h rfl
      · revert h; decide
  have hmem1 : '_' ∉ chars "translate(\"" ++ (s ++ ['"', ')']) := by
    intro hx
    rcases List.mem_append.mp hx with h | h
    · revert h; decide
    · rcases List.mem_append.mp h with h | h
      · exact hu _ h rfl
      · revert h; decide
  have hD : completeData ⟨some s, none, false, none, none, some [')'], []⟩
      = true := rfl
  -- the two-line input
  have htr1 : handleTranslatorsComment ⟨M, phi, B⟩
      (chars "translate(\"" ++ (s ++ ['"'])) = (false, ⟨M, false, B⟩) := by
    rw [show chars "translate(\"" ++ (s ++ ['"'])
      = 't' :: (chars "ranslate(\"" ++ (s ++ ['"'])) from rfl]
    have hcf := comment_patterns_fail 't' (chars "ranslate(\"" ++ (s ++ ['"']))
      (by decide) (by decide)
    exact handleTranslatorsComment_nocomment _ _ hcf.1 hcf.2
  have hb1 : findIterGo simpleRE (chars "translate(\"" ++ (s ++ ['"'])) none 0
      = [[(gMsgid, s)]] :=
    findIterGo_single _ _ _ (by simp [chars]) (tryMatchAt_line_open s hq hn)
  have hc1 : (findMatches (chars "translate(\"" ++ (s ++ ['"']))).all
      completeData = false := by
    rw [findMatches, hb1]
    simp [completeData, mkSimpleData, falsyOptStr, getCap, gMsgid, gEnd]
  have hassoc : (chars "translate(\"" ++ (s ++ ['"'])) ++ '\n' :: chars ")"
      = chars "translate(\"" ++ (s ++ ['"', '\n', ')']) := by
    rw [show chars ")" = [')'] from rfl]
    simp
  have hfm2 : findMatches ((chars "translate(\"" ++ (s ++ ['"']))
      ++ '\n' :: chars ")")
      = [⟨some s, none, false, none, none, some [')'], []⟩] := by
    have hctxt2 : findIterGo ctxtRE
        (chars "translate(\"" ++ (s ++ ['"', '\n', ')'])) none 0 = [] :=
      findIterGo_nil_of_char_missing _ _ _ _ _ '_' (by decide) hmem2
    have hplural2 : findIterGo pluralRE
        (chars "translate(\"" ++ (s ++ ['"', '\n', ')'])) none 0 = [] :=
      findIterGo_nil_of_char_missing _ _ _ _ _ '_' (by decide) hmem2
    rw [hassoc, findMatches,
      findIterGo_single _ _ _ (by simp [chars]) (tryMatchAt_two_line s hq hn),
      hctxt2, hplural2]
    simp [mkSimpleData, getCap, gMsgid, gEnd]
  rw [addCppLoop, addCppGo_fresh_incomplete _ _ _ _ htr1 hc1,
    addCppGo_pending_complete_gen _ _ _ _ (by rw [hfm2, List.all_cons, hD]; rfl),
    hfm2]
  -- the one-line input
  have htr2 : handleTranslatorsComment ⟨M, phi, B⟩
      (chars "translate(\"" ++ (s ++ ['"', ')'])) = (false, ⟨M, false, B⟩) := by
    rw [show chars "translate(\"" ++ (s ++ ['"', ')'])
      = 't' :: (chars "ranslate(\"" ++ (s ++ ['"', ')'])) from rfl]
    have hcf := comment_patterns_fail 't'
      (chars "ranslate(\"" ++ (s ++ ['"', ')'])) (by decide) (by decide)
    exact handleTranslatorsComment_nocomment _ _ hcf.1 hcf.2
  have hfm1 : findMatches (chars "translate(\"" ++ (s ++ ['"', ')']))
      = [⟨some s, none, false, none, none, some [')'], []⟩] := by
    have hctxt1 : findIterGo ctxtRE
        (chars "translate(\"" ++ (s ++ ['"', ')'])) none 0 = [] :=
      findIterGo_nil_of_char_missing _ _ _ _ _ '_' (by decide) hmem1
    have hplural1 : findIterGo pluralRE
        (chars "translate(\"" ++ (s ++ ['"', ')'])) none 0 = [] :=
      findIterGo_nil_of_char_missing _ _ _ _ _ '_' (by decide) hmem1
    rw [findMatches,
      findIterGo_single _ _ _ (by simp [chars]) (tryMatchAt_one_line s hq hn),
      hctxt1, hplural1]
    simp [mkSimpleData, getCap, gMsgid, gEnd]
  rw [addCppLoop, addCppGo_fresh_complete_gen _ _ _ _ htr2
    (by rw [hfm1, List.all_cons, hD]; rfl), hfm1]

theorem multiline_call_same_as_single_line_wit :
    (∀ c ∈ chars "hello world", c ≠ '"' ∧ c ≠ '\n' ∧ c ≠ '_') ∧
    addCppLoop [chars "translate(\"" ++ (chars "hello world" ++ ['"']),
        chars ")"] ⟨[], false, []⟩
      = addCppLoop [chars "translate(\""
          ++ (chars "hello world" ++ ['"', ')'])] ⟨[], false, []⟩ :=
  ⟨by decide, multiline_call_same_as_single_line [] false []
    (chars "hello world") (by decide)⟩
